import Mathlib

/-! # GuGuMouseBackend: conversation history, markup parsing, token estimate

A shallow embedding of the message pipeline of the QQ relay
(`utils.go`, `openai.go`, `main.go`) and the properties proved about it.

Conventions of the embedding:

* a Go `string` is the list of its Unicode code points (`Str`);
* Go's `int` is an `Int` kept in the 64-bit two's-complement range by
  `wrapInt` after every addition and subtraction;
* the `float64` counter of `RoughEstimateTokens` only ever holds multiples of
  one half, which `float64` adds exactly below `2^52`, so it is a rational;
* a run-time panic (index out of range) is an explicit outcome;
* what the program takes from the Go standard library and from the network
  (Unicode tables, `html.UnescapeString`, the messenger, the completion
  service) is a parameter.
-/

namespace GuGuMouse

/-- A Go string, as the sequence of its code points. -/
abbrev Str := List Char

/-! ## Machine integers -/

/-- Number of bits of Go's `int` on the 64-bit targets. -/
def intSize : Nat := 64

/-- Two's-complement wrap-around of a mathematical integer into the range of `int`. -/
def wrapInt (x : Int) : Int :=
  (x + ((2 ^ (intSize - 1) : Nat) : Int)) % ((2 ^ intSize : Nat) : Int)
    - ((2 ^ (intSize - 1) : Nat) : Int)

/-! ## Outcomes of code that can panic -/

/-- Result of running a piece of Go code: a value, the run-time panic
"index out of range", or exhaustion of the fuel given to a loop. -/
inductive Outcome (α : Type) where
  | ok (value : α)
  | indexOutOfRange
  | outOfFuel
  deriving DecidableEq

/-! ## Conversation history (`openai.go`) -/

/-- The `Message` struct: role, content and the token cost attributed to it. -/
structure Message where
  Role : Str
  Content : Str
  Tokens : Int
  deriving DecidableEq

/-- The global `userMessagesContext`: a Go map from user identity to history;
a missing key reads as the nil slice. -/
abbrev Store := Int → List Message

/-- The map with no key. -/
def emptyStore : Store := fun _ => []

/-- Assignment `userMessagesContext[userID] = messages`. -/
def Store.set (store : Store) (userID : Int) (messages : List Message) : Store :=
  fun k => if k = userID then messages else store k

/-- The summation loop of `updateHistoryWithResponse` (openai.go 130-133):
`totalTokens += msg.Tokens` over the history, in `int` arithmetic. -/
def sumTokens (messages : List Message) : Int :=
  messages.foldl (fun totalTokens msg => wrapInt (totalTokens + msg.Tokens)) 0

/-- The eviction loop (openai.go 140-143):
`for totalTokens > 15000 || len(messages) >= 10 { totalTokens -= messages[0].Tokens; messages = messages[1:] }`.
One unit of fuel is one evaluation of the loop condition. Reading `messages[0]`
of an empty slice is the panic `indexOutOfRange`. -/
def evictLoop : Nat → Int → List Message → Outcome (Int × List Message)
  | 0, _, _ => .outOfFuel
  | fuel + 1, totalTokens, messages =>
    if totalTokens > 15000 ∨ messages.length ≥ 10 then
      match messages with
      | [] => .indexOutOfRange
      | first :: rest => evictLoop fuel (wrapInt (totalTokens - first.Tokens)) rest
    else .ok (totalTokens, messages)

/-- The history adjustment of `updateHistoryWithResponse` before the append
(openai.go 127-144), on the history of one user. The loop is given
`len(messages) + 1` units of fuel. -/
def adjustHistory (messages : List Message) : Outcome (List Message) :=
  let totalTokens := sumTokens messages
  if totalTokens > 10000 ∨ messages.length ≥ 10 then
    match evictLoop (messages.length + 1) totalTokens messages with
    | .ok (_, kept) => .ok kept
    | .indexOutOfRange => .indexOutOfRange
    | .outOfFuel => .outOfFuel
  else .ok messages

/-- The function `updateHistoryWithResponse` (openai.go 123-149): adjust the
stored history of `userID`, append the user message and the assistant message,
store the result. The mutex is not modelled: one call is one atomic step. -/
def updateHistoryWithResponse (store : Store) (userID : Int)
    (userMessage assistantMessage : Message) : Outcome Store :=
  match adjustHistory (store userID) with
  | .ok kept => .ok (store.set userID (kept ++ [userMessage, assistantMessage]))
  | .indexOutOfRange => .indexOutOfRange
  | .outOfFuel => .outOfFuel

/-- A sequence of calls of `updateHistoryWithResponse`, oldest first. -/
def runUpdates : Store → List (Int × Message × Message) → Outcome Store
  | store, [] => .ok store
  | store, (userID, userMessage, assistantMessage) :: calls =>
    match updateHistoryWithResponse store userID userMessage assistantMessage with
    | .ok store1 => runUpdates store1 calls
    | .indexOutOfRange => .indexOutOfRange
    | .outOfFuel => .outOfFuel

/-- A store is reachable when successive calls of `updateHistoryWithResponse`
produce it from the empty map. -/
def Reachable (store : Store) : Prop :=
  ∃ calls, runUpdates emptyStore calls = .ok store

/-- The plain (mathematical) sum of the costs of a history. -/
def costSum (messages : List Message) : Int := (messages.map Message.Tokens).sum

/-- A history entry with the given role and cost, for examples. -/
def sampleEntry (role : String) (tokens : Int) : Message :=
  { Role := role.toList, Content := "hi".toList, Tokens := tokens }

/-- Six exchanges of one user, each costing 5 + 7 tokens. -/
def sixExchanges : List (Int × Message × Message) :=
  List.replicate 6 (1, sampleEntry "user" 5, sampleEntry "assistant" 7)

/-- The store produced by a run from the empty map (the empty map when the run fails). -/
def storeAfter (calls : List (Int × Message × Message)) : Store :=
  match runUpdates emptyStore calls with
  | .ok store => store
  | _ => emptyStore

/-- Five exchanges of one user, each costing 5 + 7 tokens. -/
def fiveExchanges : List (Int × Message × Message) :=
  List.replicate 5 (1, sampleEntry "user" 5, sampleEntry "assistant" 7)

/-- A history entry whose reported cost is 2^62 tokens. -/
def hugeEntry (role : String) : Message :=
  { Role := role.toList, Content := "hi".toList, Tokens := 4611686018427387904 }

/-- One exchange of one user for which the service reports 2^62 prompt tokens
and 2^62 completion tokens. -/
def hugeExchange : List (Int × Message × Message) :=
  [(1, hugeEntry "user", hugeEntry "assistant")]

/-! ## The Go standard library, as a parameter -/

/-- The functions of the Go standard library whose tables the program consults. -/
structure GoLib where
  /-- Membership test `unicode.Is(unicode.Scripts["Han"], r)`. -/
  unicodeIsHan : Char → Bool
  /-- Membership test `unicode.IsPunct(r)`. -/
  unicodeIsPunct : Char → Bool
  /-- Membership test `unicode.IsSpace(r)`. -/
  unicodeIsSpace : Char → Bool
  /-- Function `html.UnescapeString(s)`. -/
  htmlUnescapeString : Str → Str

/-- The ASCII code points of the Unicode punctuation categories:
``! " # % & ' ( ) * , - . / : ; ? @ [ \ ] _ { }``. -/
def asciiIsPunct (c : Char) : Bool :=
  decide (c.toNat ∈ [33, 34, 35, 37, 38, 39, 40, 41, 42, 44, 45, 46, 47, 58, 59, 63, 64,
    91, 92, 93, 95, 123, 125])

/-- The ASCII white space: tab, line feed, vertical tab, form feed, carriage return, space. -/
def asciiIsSpace (c : Char) : Bool :=
  decide (c.toNat ∈ [9, 10, 11, 12, 13, 32])

/-- What is used of the Unicode tables on ASCII: no ASCII code point is in the
Han script, and punctuation and white space are the two sets above. -/
def GoLib.AgreesOnAscii (lib : GoLib) : Prop :=
  ∀ c : Char, c.toNat < 128 →
    lib.unicodeIsHan c = false ∧ lib.unicodeIsPunct c = asciiIsPunct c ∧
      lib.unicodeIsSpace c = asciiIsSpace c

/-! ## Token estimate (`utils.go`) -/

/-- One iteration of the loop of `RoughEstimateTokens` (utils.go 85-101) on the
state `(tokenCount, inWord)`. -/
def roughStep (lib : GoLib) (state : ℚ × Bool) (runeValue : Char) : ℚ × Bool :=
  if lib.unicodeIsHan runeValue then (state.1 + 1.5, false)
  else if runeValue = ' ' ∨ lib.unicodeIsPunct runeValue = true then (state.1, false)
  else if state.2 = false then (state.1 + 1, true)
  else state

/-- The function `RoughEstimateTokens` (utils.go 81-104). -/
def RoughEstimateTokens (lib : GoLib) (input : Str) : ℚ :=
  (input.foldl (roughStep lib) (0, false)).1

/-- A code point that is neither Han, nor the space character, nor punctuation. -/
def isWordRune (lib : GoLib) (c : Char) : Bool :=
  !lib.unicodeIsHan c && !(c == ' ' || lib.unicodeIsPunct c)

/-- The number of Han code points of a text. -/
def hanCount (lib : GoLib) (text : Str) : Nat := text.countP lib.unicodeIsHan

/-- The maximal runs of consecutive word code points of a text: the non-empty
pieces left when the text is cut at every code point that is not one. -/
def wordRuns (lib : GoLib) (text : Str) : List Str :=
  (text.splitOnP (fun c => !isWordRune lib c)).filter (fun run => !run.isEmpty)

/-! ## A concrete library for examples -/

/-- The four escapes of the CQ format (`&amp;`, `&#91;`, `&#93;`, `&#44;`),
decoded from left to right; the counter is the number of code points of an
escape still to be skipped. Text without `&` is returned unchanged, as
`html.UnescapeString` does. -/
def sampleUnescapeFrom : Nat → Str → Str
  | _, [] => []
  | skip + 1, _ :: rest => sampleUnescapeFrom skip rest
  | 0, c :: rest =>
    if ("&amp;".toList).isPrefixOf (c :: rest) then '&' :: sampleUnescapeFrom 4 rest
    else if ("&#91;".toList).isPrefixOf (c :: rest) then '[' :: sampleUnescapeFrom 4 rest
    else if ("&#93;".toList).isPrefixOf (c :: rest) then ']' :: sampleUnescapeFrom 4 rest
    else if ("&#44;".toList).isPrefixOf (c :: rest) then ',' :: sampleUnescapeFrom 4 rest
    else c :: sampleUnescapeFrom 0 rest

/-- The Unicode property White_Space, which `unicode.IsSpace` tests. -/
def whiteSpace (c : Char) : Bool :=
  decide (c.toNat ∈ [9, 10, 11, 12, 13, 32, 0x85, 0xA0, 0x1680, 0x2028, 0x2029, 0x202F,
    0x205F, 0x3000]) || (decide (0x2000 ≤ c.toNat) && decide (c.toNat ≤ 0x200A))

/-- A concrete library for examples. It agrees with the Go library on ASCII
text, on the block U+4E00..U+9FA5 of CJK ideographs, on white space and on the
four escapes of the CQ format; outside of these it is not a model of the Go tables. -/
def sampleLib : GoLib where
  unicodeIsHan := fun c => decide (0x4E00 ≤ c.toNat) && decide (c.toNat ≤ 0x9FA5)
  unicodeIsPunct := asciiIsPunct
  unicodeIsSpace := whiteSpace
  htmlUnescapeString := sampleUnescapeFrom 0

/-! ## Regular expressions (`regexp`)

The four expressions of `utils.go` are sequences of literals, of greedy
repetitions of a character class and of one optional literal, with one capture
group. Matching is the backtracking search that defines Go's leftmost-first
semantics: a repetition first takes as many code points as it can and gives
them back one at a time while the rest of the expression fails. -/

/-- One element of an expression. -/
inductive Atom where
  /-- A literal code point. -/
  | lit (c : Char)
  /-- Greedy `[class]*`. -/
  | star (cls : Char → Bool)
  /-- Greedy `[class]+`. -/
  | plus (cls : Char → Bool)
  /-- Greedy `c?`. -/
  | opt (c : Char)

/-- An element together with the mark "inside the capture group". -/
structure Item where
  atom : Atom
  captured : Bool

/-- A compiled expression. -/
abbrev Regexp := List Item

/-- A match found at the head of a text: the text of the capture group and the
number of code points the whole match spans. -/
abbrev Match := Str × Nat

/-- Extends a match to the left by one code point, captured or not. -/
def Match.consume (captured : Bool) (c : Char) (m : Match) : Match :=
  (if captured then c :: m.1 else m.1, m.2 + 1)

/-- Greedy repetition of a class followed by the continuation `next`. -/
def starLoop (cls : Char → Bool) (captured : Bool) (next : Str → Option Match) :
    Str → Option Match
  | [] => next []
  | c :: cs =>
    if cls c then
      match starLoop cls captured next cs with
      | some m => some (m.consume captured c)
      | none => next (c :: cs)
    else next (c :: cs)

/-- The first match, in backtracking order, of an expression at the head of a text. -/
def matchHere : Regexp → Str → Option Match
  | [] => fun _ => some ([], 0)
  | ⟨.lit c, captured⟩ :: rest => fun s =>
    match s with
    | [] => none
    | x :: xs => if x = c then (matchHere rest xs).map (Match.consume captured x) else none
  | ⟨.star cls, captured⟩ :: rest => fun s => starLoop cls captured (matchHere rest) s
  | ⟨.plus cls, captured⟩ :: rest => fun s =>
    match s with
    | [] => none
    | x :: xs =>
      if cls x then (starLoop cls captured (matchHere rest) xs).map (Match.consume captured x)
      else none
  | ⟨.opt c, captured⟩ :: rest => fun s =>
    match s with
    | [] => matchHere rest []
    | x :: xs =>
      if x = c then
        match matchHere rest xs with
        | some m => some (m.consume captured x)
        | none => matchHere rest (x :: xs)
      else matchHere rest (x :: xs)

/-- The capture groups of the successive non-overlapping matches, from left to
right, as `FindAllStringSubmatch(s, -1)` lists them (element 1 of each match).
The counter is the number of code points of the last match still to be passed.
The expressions of the program match no empty text. -/
def findAllFrom (re : Regexp) : Nat → Str → List Str
  | _, [] => []
  | skip + 1, _ :: rest => findAllFrom re skip rest
  | 0, c :: rest =>
    match matchHere re (c :: rest) with
    | some m => m.1 :: findAllFrom re (m.2 - 1) rest
    | none => findAllFrom re 0 rest

/-- The method `FindAllStringSubmatch(s, -1)`, reduced to the capture group of each match. -/
def findAllStringSubmatch (re : Regexp) (s : Str) : List Str := findAllFrom re 0 s

/-- The text with every match replaced by `repl`, taken literally (the program
passes the empty replacement). -/
def replaceAllFrom (re : Regexp) (repl : Str) : Nat → Str → Str
  | _, [] => []
  | skip + 1, _ :: rest => replaceAllFrom re repl skip rest
  | 0, c :: rest =>
    match matchHere re (c :: rest) with
    | some m => repl ++ replaceAllFrom re repl (m.2 - 1) rest
    | none => c :: replaceAllFrom re repl 0 rest

/-- The method `ReplaceAllString(src, repl)`. -/
def replaceAllString (re : Regexp) (src repl : Str) : Str := replaceAllFrom re repl 0 src

/-- Literals outside the capture group. -/
def lits (text : String) : Regexp := text.toList.map (fun c => ⟨.lit c, false⟩)

/-- The class `[^]]`. -/
def notBracket (c : Char) : Bool := c != ']'

/-- The class `[^,\]]`. -/
def notCommaBracket (c : Char) : Bool := c != ',' && c != ']'

/-- The class `\d`: the ASCII digits. -/
def digit (c : Char) : Bool := c.isDigit

/-- The expression ``\[CQ:[^]]+]``. -/
def reCQ : Regexp := lits "[CQ:" ++ [⟨.plus notBracket, false⟩] ++ lits "]"

/-- The expression ``\[CQ:image,[^]]*url=([^,\]]+)]``. -/
def reImage : Regexp :=
  lits "[CQ:image," ++ [⟨.star notBracket, false⟩] ++ lits "url=" ++
    [⟨.plus notCommaBracket, true⟩] ++ lits "]"

/-- The expression ``\[CQ:at,qq=(\d+)]``. -/
def reAt : Regexp := lits "[CQ:at,qq=" ++ [⟨.plus digit, true⟩] ++ lits "]"

/-- The expression ``\[CQ:reply,id=(-?\d+)]``. -/
def reReply : Regexp :=
  lits "[CQ:reply,id=" ++ [⟨.opt '-', true⟩, ⟨.plus digit, true⟩] ++ lits "]"

/-! ## Markup parser (`utils.go`) -/

/-- The `ChatMessage` struct. -/
structure ChatMessage where
  Text : Str
  ImageURLList : List Str
  AtUserList : List Str
  ReplyTo : Str
  deriving DecidableEq

/-- The function `unescapeCQCode` (utils.go 64-66). -/
def unescapeCQCode (lib : GoLib) (message : Str) : Str := lib.htmlUnescapeString message

/-- The function `strings.TrimSpace`: leading and trailing white space removed. -/
def TrimSpace (lib : GoLib) (s : Str) : Str :=
  (s.dropWhile lib.unicodeIsSpace).rdropWhile lib.unicodeIsSpace

/-- The function `strings.Trim(s, cutset)`: leading and trailing code points of the cutset removed. -/
def Trim (s cutset : Str) : Str :=
  (s.dropWhile (fun c => cutset.contains c)).rdropWhile (fun c => cutset.contains c)

/-- The function `parseCQCode` (utils.go 28-61). -/
def parseCQCode (lib : GoLib) (message : Str) : ChatMessage :=
  let message := unescapeCQCode lib message
  let cleanMessage := replaceAllString reCQ message []
  let imageURLs := findAllStringSubmatch reImage message
  let atUsers := findAllStringSubmatch reAt message
  let replyTo :=
    match findAllStringSubmatch reReply message with
    | first :: _ => first
    | [] => []
  let cleanMessage := TrimSpace lib cleanMessage
  { Text := cleanMessage, ImageURLList := imageURLs, AtUserList := atUsers, ReplyTo := replyTo }

/-! ## Messages as sequences of text and tags -/

/-- A piece of a raw message: plain text, an image tag
`[CQ:image,<before>url=<url>]` whose last attribute is the URL, or a tag
`[CQ:<type>,<attrs>]` of another kind. -/
inductive Segment where
  | text (t : Str)
  | image (before url : Str)
  | other (type attrs : Str)
  deriving DecidableEq

/-- What stands between `[CQ:` and `]` in a tag. -/
def Segment.body : Segment → Str
  | .text _ => []
  | .image before url => "image,".toList ++ before ++ "url=".toList ++ url
  | .other type attrs => type ++ ',' :: attrs

/-- The piece as it is written in the raw message. -/
def Segment.render : Segment → Str
  | .text t => t
  | seg => "[CQ:".toList ++ seg.body ++ [']']

/-- The raw message made of the pieces, in order. -/
def renderAll : List Segment → Str
  | [] => []
  | seg :: segs => seg.render ++ renderAll segs

/-- The plain text of the pieces, in order, tags left out. -/
def plainText : List Segment → Str
  | [] => []
  | .text t :: segs => t ++ plainText segs
  | _ :: segs => plainText segs

/-- The URLs of the image tags among the pieces, in order. -/
def imageURLs : List Segment → List Str
  | [] => []
  | .image _ url :: segs => url :: imageURLs segs
  | _ :: segs => imageURLs segs

/-- Pieces for the stripping of tags: plain text holds no `[`, and the body of
a tag holds no `]`. -/
def Segment.Strippable : Segment → Prop
  | .text t => '[' ∉ t
  | seg => ']' ∉ seg.body

/-- Pieces for the extraction of image URLs: plain text holds no `[`; in an
image tag nothing before the URL is a `]`, and the URL is not empty and holds
no `,`, no `]` and not the text `url=`; a tag of another kind has a type other
than `image`, free of `,`, and holds no `[`. -/
def Segment.Extractable : Segment → Prop
  | .text t => '[' ∉ t
  | .image before url =>
    ']' ∉ before ∧ url ≠ [] ∧ ',' ∉ url ∧ ']' ∉ url ∧ ¬ "url=".toList <:+: url
  | .other type attrs =>
    type ≠ "image".toList ∧ ',' ∉ type ∧ '[' ∉ type ∧ '[' ∉ attrs

/-! ## Completion requests and the session pipeline (`openai.go`, `main.go`) -/

/-- The `UsageInfo` struct. -/
structure UsageInfo where
  PromptTokens : Int
  CompletionTokens : Int
  TotalTokens : Int
  deriving DecidableEq

/-- The `APIError` struct (`Typ` is the field `Type`). -/
structure APIError where
  Message : Str
  Typ : Str
  Param : Str
  Code : Str
  deriving DecidableEq

/-- The `Choice` struct (`LogProbs` is never read and left out). -/
structure Choice where
  Index : Int
  Message : Message
  FinishReason : Str
  deriving DecidableEq

/-- The `Response` struct, with the fields the program reads. -/
structure Response where
  Choices : List Choice
  Usage : UsageInfo
  Error : APIError
  deriving DecidableEq

/-- The `ImageMessageContent` struct (`Typ` is the field `Type`; `ImageURL` is the
one-field struct holding the URL). -/
structure ImageMessageContent where
  Typ : Str
  Text : Str
  ImageURL : Str
  deriving DecidableEq

/-- The `ImageMessage` struct. -/
structure ImageMessage where
  Role : Str
  Content : List ImageMessageContent
  deriving DecidableEq

/-- The `ImageRequestData` struct. -/
structure ImageRequestData where
  Model : Str
  ImageMessages : List ImageMessage
  deriving DecidableEq

/-- The body of a request to the completion service: the map built by
`queryOpenAIWithContext` (model and messages; `Tokens` is not serialised, so a
message goes out as role and content), or an `ImageRequestData`. -/
inductive Request where
  | chat (model : Str) (messages : List (Str × Str))
  | vision (data : ImageRequestData)
  deriving DecidableEq

/-- The two services the pipeline talks to. -/
structure Env where
  /-- `QQMessageSender.SendPrivateMessage(userID, text)`: `true` when it
  returns no error. -/
  sendPrivateMessage : Int → Str → Bool
  /-- The HTTP exchange with the completion service and the decoding of its
  answer: `none` when a step returns an error. -/
  complete : Request → Option Response

/-- What a run does to the outside, in order. -/
inductive Event where
  /-- A call of `SendPrivateMessage`. -/
  | send (userID : Int) (text : Str)
  /-- A request posted to the completion service. -/
  | ask (request : Request)
  deriving DecidableEq

/-- State after a call of a query function: the store, the events, the returned
`*Response` (`none` is the `nil` returned with an error) and whether it returned
normally. -/
structure QueryResult where
  store : Store
  trace : List Event
  response : Option Response
  status : Outcome Unit

/-- State after the task of `handlePrivateMessage`: the store, the events and
whether the task ended normally; a panic of the task ends the process. -/
structure Run where
  store : Store
  trace : List Event
  status : Outcome Unit

/-- The `QQMessage` struct. -/
structure QQMessage where
  PostType : Str
  MessageType : Str
  Message : Str
  UserID : Int
  GroupID : Int
  deriving DecidableEq

/-- The function `strings.HasPrefix`. -/
def HasPrefix (s pre : Str) : Bool := pre.isPrefixOf s

/-- The escalation prefix. -/
def gpt4Prefix : Str := "/GPT4".toList
/-- The notice sent before an escalated request. -/
def gpt4Notice : Str := "本次回答将使用 GPT-4o 模型，请稍等..".toList
/-- The notice sent before an image request. -/
def imageNotice : Str := "已触发老鼠识图，请稍等～".toList
/-- The notice for an input that is too long. -/
def tooLongNotice : Str := "输入太长了～ 请不要超过 2000 个字符".toList
/-- The sentinel phrase of the liveness probe. -/
def sentinel : Str := "无语".toList
/-- The canned reply to the sentinel. -/
def cannedReply : Str := "家人们，谁懂啊！".toList
/-- The default prompt of an image request without text. -/
def defaultImagePrompt : Str := "请描述这张图片".toList

/-- The tail of both query functions (openai.go 198-212 and 302-316): when the
response has a choice, record the exchange with the reported costs. -/
def recordExchange (store : Store) (trace : List Event) (userID : Int)
    (userMessageContent : Str) (response : Response) : QueryResult :=
  if response.Choices.length > 0 then
    match response.Choices with
    | [] => { store := store, trace := trace, response := none, status := .indexOutOfRange }
    | first :: _ =>
      let userMessage : Message :=
        { Role := "user".toList, Content := userMessageContent,
          Tokens := response.Usage.PromptTokens }
      let assistantMessage : Message :=
        { Role := "assistant".toList, Content := first.Message.Content,
          Tokens := response.Usage.CompletionTokens }
      match updateHistoryWithResponse store userID userMessage assistantMessage with
      | .ok store1 =>
        { store := store1, trace := trace, response := some response, status := .ok () }
      | .indexOutOfRange =>
        { store := store, trace := trace, response := none, status := .indexOutOfRange }
      | .outOfFuel =>
        { store := store, trace := trace, response := none, status := .outOfFuel }
  else { store := store, trace := trace, response := some response, status := .ok () }

/-- The function `queryOpenAIWithContext` (openai.go 151-213). The slice
`userMessageContent[5:]` cuts five bytes, which are the five code points of the prefix. -/
def queryOpenAIWithContext (env : Env) (store : Store) (userID : Int)
    (userMessageContent : Str) : QueryResult :=
  let escalated := HasPrefix userMessageContent gpt4Prefix
  let model := if escalated then "gpt-4o".toList else "gpt-3.5-turbo".toList
  let userMessageContent := if escalated then userMessageContent.drop 5 else userMessageContent
  let trace := if escalated then [Event.send userID gpt4Notice] else []
  if escalated ∧ env.sendPrivateMessage userID gpt4Notice = false then
    { store := store, trace := trace, response := none, status := .ok () }
  else
    let newMessage : Message :=
      { Role := "user".toList, Content := userMessageContent, Tokens := 0 }
    let request := Request.chat model
      ((store userID ++ [newMessage]).map (fun m => (m.Role, m.Content)))
    let trace := trace ++ [Event.ask request]
    match env.complete request with
    | none => { store := store, trace := trace, response := none, status := .ok () }
    | some response => recordExchange store trace userID userMessageContent response

/-- The function `queryOpenAIWithImage` (openai.go 237-317). -/
def queryOpenAIWithImage (env : Env) (store : Store) (userId : Int)
    (userMessageContent : Str) (imageUrls : List Str) : QueryResult :=
  let userMessageContent :=
    if userMessageContent = [] then defaultImagePrompt else userMessageContent
  let contents : List ImageMessageContent :=
    { Typ := "text".toList, Text := userMessageContent, ImageURL := [] } ::
      imageUrls.map (fun imageUrl =>
        { Typ := "image_url".toList, Text := [], ImageURL := imageUrl })
  let requestData : ImageRequestData :=
    { Model := "gpt-4o".toList,
      ImageMessages := [{ Role := "user".toList, Content := contents }] }
  let trace := [Event.ask (Request.vision requestData)]
  match env.complete (Request.vision requestData) with
  | none => { store := store, trace := trace, response := none, status := .ok () }
  | some response => recordExchange store trace userId userMessageContent response

/-- What `handlePrivateMessage` does with the result of a query (main.go
123-133, 138-148 and 151-152): nothing on an error, the error message of the
service when there is one, else the content of `answer.Choices[0]`. -/
def deliverAnswer (userID : Int) (result : QueryResult) : Run :=
  match result.status, result.response with
  | .ok (), some answer =>
    if answer.Error.Message ≠ [] then
      { store := result.store,
        trace := result.trace ++ [Event.send userID answer.Error.Message], status := .ok () }
    else
      match answer.Choices with
      | [] => { store := result.store, trace := result.trace, status := .indexOutOfRange }
      | first :: _ =>
        { store := result.store,
          trace := result.trace ++ [Event.send userID first.Message.Content], status := .ok () }
  | status, _ => { store := result.store, trace := result.trace, status := status }

/-- The task started by `handlePrivateMessage` (main.go 90-154). -/
def handlePrivateMessage (lib : GoLib) (env : Env) (store : Store) (msg : QQMessage) : Run :=
  let privateChatMessage := parseCQCode lib msg.Message
  let roughEstimateTokens := RoughEstimateTokens lib privateChatMessage.Text
  if roughEstimateTokens > 3000 then
    { store := store, trace := [Event.send msg.UserID tooLongNotice], status := .ok () }
  else if privateChatMessage.ImageURLList.length = 0
      ∧ Trim privateChatMessage.Text " ".toList = [] then
    { store := store, trace := [], status := .ok () }
  else if privateChatMessage.ImageURLList.length = 0 then
    if privateChatMessage.Text = sentinel then
      { store := store, trace := [Event.send msg.UserID cannedReply], status := .ok () }
    else
      deliverAnswer msg.UserID
        (queryOpenAIWithContext env store msg.UserID privateChatMessage.Text)
  else
    let result := queryOpenAIWithImage env store msg.UserID privateChatMessage.Text
      privateChatMessage.ImageURLList
    deliverAnswer msg.UserID
      { result with trace := Event.send msg.UserID imageNotice :: result.trace }

/-- An environment for examples: every message is delivered, and the completion
service answers every request with the given response. -/
def sampleEnv (response : Option Response) : Env where
  sendPrivateMessage := fun _ _ => true
  complete := fun _ => response

/-- A well-formed answer of the service that carries no choice and no error:
the decoding of the JSON text `{}`. -/
def emptyResponse : Response :=
  { Choices := [], Usage := { PromptTokens := 0, CompletionTokens := 0, TotalTokens := 0 },
    Error := { Message := [], Typ := [], Param := [], Code := [] } }

/-- A private message event. -/
def privateMessage (userID : Int) (text : String) : QQMessage :=
  { PostType := "message".toList, MessageType := "private".toList, Message := text.toList,
    UserID := userID, GroupID := 0 }

/-- An environment in which no message is delivered. -/
def deafEnv (response : Option Response) : Env where
  sendPrivateMessage := fun _ _ => false
  complete := fun _ => response

/-! ## Sample messages -/

/-- A message for examples: text, a mention, text, an image tag, a reply tag, text. -/
def sampleSegments : List Segment :=
  [.text " see ".toList, .other "at".toList "qq=42".toList, .text "this".toList,
   .image "file=a.jpg,".toList "http://x/a.jpg".toList,
   .other "reply".toList "id=-7".toList, .text " now  ".toList]

/-- A message with two image tags around a mention. -/
def twoImages : List Segment :=
  [.image [] "http://x/1.png".toList, .text " and ".toList, .other "at".toList "qq=42".toList,
   .image "file=b.jpg,subType=0,".toList "http://x/2.png".toList]

/-! # Theorems -/

/-! ## Machine integers and the history -/

theorem wrapInt_eq_add_mul (a : Int) :
    ∃ k : Int, wrapInt a = a + ((2 ^ intSize : Nat) : Int) * k := by
  refine ⟨-((a + ((2 ^ (intSize - 1) : Nat) : Int)) / ((2 ^ intSize : Nat) : Int)), ?_⟩
  unfold wrapInt
  rw [Int.emod_def]
  ring

theorem wrapInt_add_mul (a k : Int) :
    wrapInt (a + ((2 ^ intSize : Nat) : Int) * k) = wrapInt a := by
  unfold wrapInt
  have e : a + ((2 ^ intSize : Nat) : Int) * k + ((2 ^ (intSize - 1) : Nat) : Int)
      = a + ((2 ^ (intSize - 1) : Nat) : Int) + ((2 ^ intSize : Nat) : Int) * k := by ring
  rw [e, Int.add_mul_emod_self_left]

theorem wrapInt_zero : wrapInt 0 = 0 := by decide

theorem wrapInt_add_left (a b : Int) : wrapInt (wrapInt a + b) = wrapInt (a + b) := by
  obtain ⟨k, hk⟩ := wrapInt_eq_add_mul a
  rw [hk, show a + ((2 ^ intSize : Nat) : Int) * k + b
      = a + b + ((2 ^ intSize : Nat) : Int) * k by ring, wrapInt_add_mul]

theorem wrapInt_sub_left (a b : Int) : wrapInt (wrapInt a - b) = wrapInt (a - b) := by
  have := wrapInt_add_left a (-b)
  simpa [sub_eq_add_neg] using this

/-- Inside the range of `int` nothing wraps. -/
theorem wrapInt_of_range (a : Int) (h1 : -((2 ^ (intSize - 1) : Nat) : Int) ≤ a)
    (h2 : a < ((2 ^ (intSize - 1) : Nat) : Int)) : wrapInt a = a := by
  unfold wrapInt
  rw [Int.emod_eq_of_lt]
  · ring
  · omega
  · have : ((2 ^ intSize : Nat) : Int) = 2 * ((2 ^ (intSize - 1) : Nat) : Int) := by decide
    omega

theorem foldl_sumTokens (messages : List Message) (acc : Int) :
    messages.foldl (fun totalTokens msg => wrapInt (totalTokens + msg.Tokens)) (wrapInt acc)
      = wrapInt (acc + costSum messages) := by
  induction messages generalizing acc with
  | nil => simp [costSum]
  | cons m ms ih =>
    simp only [List.foldl_cons, wrapInt_add_left]
    rw [ih]
    simp [costSum, add_assoc]

/-- The running total of the code is the plain sum of the costs, wrapped into `int`. -/
theorem sumTokens_eq (messages : List Message) :
    sumTokens messages = wrapInt (costSum messages) := by
  have := foldl_sumTokens messages 0
  rw [wrapInt_zero] at this
  simpa [sumTokens] using this

/-- While the plain sum fits in an `int`, the running total is that sum. -/
theorem sumTokens_eq_costSum (messages : List Message)
    (h1 : -((2 ^ (intSize - 1) : Nat) : Int) ≤ costSum messages)
    (h2 : costSum messages < ((2 ^ (intSize - 1) : Nat) : Int)) :
    sumTokens messages = costSum messages := by
  rw [sumTokens_eq, wrapInt_of_range _ h1 h2]

theorem sumTokens_nil : sumTokens [] = 0 := rfl

/-- One iteration keeps the invariant "the total is the cost of what is retained". -/
theorem sumTokens_tail (first : Message) (rest : List Message) :
    wrapInt (sumTokens (first :: rest) - first.Tokens) = sumTokens rest := by
  rw [sumTokens_eq, sumTokens_eq, wrapInt_sub_left]
  simp [costSum]

/-- The eviction loop, started with the total of the history and more fuel than
the history is long, stops normally at the longest suffix that violates neither bound. -/
theorem evictLoop_spec (fuel : Nat) (h : List Message) (hfuel : h.length < fuel) :
    ∃ s, evictLoop fuel (sumTokens h) h = .ok (sumTokens s, s) ∧ s <:+ h ∧
      s.length < 10 ∧ sumTokens s ≤ 15000 ∧
      ∀ t, t <:+ h → t.length < 10 → sumTokens t ≤ 15000 → t.length ≤ s.length := by
  induction fuel generalizing h with
  | zero => omega
  | succ fuel ih =>
    unfold evictLoop
    by_cases hc : sumTokens h > 15000 ∨ h.length ≥ 10
    · rw [if_pos hc]
      cases h with
      | nil => simp [sumTokens_nil] at hc
      | cons first rest =>
        simp only [sumTokens_tail]
        obtain ⟨s, hs, hsuf, hlen, hcost, hmax⟩ := ih rest (by simpa using hfuel)
        refine ⟨s, hs, hsuf.trans (List.suffix_cons _ _), hlen, hcost, ?_⟩
        intro t ht htl htc
        rcases List.suffix_cons_iff.mp ht with rfl | ht
        · exfalso
          rcases hc with hc | hc <;> omega
        · exact hmax t ht htl htc
    · rw [if_neg hc]
      refine ⟨h, rfl, List.suffix_refl _, by omega, by omega, ?_⟩
      intro t ht _ _
      exact ht.length_le

theorem adjustHistory_spec (h : List Message) :
    ∃ s, adjustHistory h = .ok s ∧ s <:+ h ∧
      (if h.length < 10 ∧ sumTokens h ≤ 10000 then s = h
       else s.length < 10 ∧ sumTokens s ≤ 15000 ∧
        ∀ t, t <:+ h → t.length < 10 → sumTokens t ≤ 15000 → t.length ≤ s.length) := by
  unfold adjustHistory
  by_cases hc : sumTokens h > 10000 ∨ h.length ≥ 10
  · obtain ⟨s, hs, hsuf, hrest⟩ := evictLoop_spec (h.length + 1) h (Nat.lt_succ_self _)
    have hn : ¬ (h.length < 10 ∧ sumTokens h ≤ 10000) := by
      rintro ⟨h1, h2⟩
      rcases hc with hc | hc <;> omega
    refine ⟨s, ?_, hsuf, ?_⟩
    · simp only [hc, if_true, hs]
    · rw [if_neg hn]
      exact hrest
  · have hp : h.length < 10 ∧ sumTokens h ≤ 10000 := by
      constructor
      · by_contra hx
        exact hc (Or.inr (by omega))
      · by_contra hx
        exact hc (Or.inl (by omega))
    refine ⟨h, ?_, List.suffix_refl _, ?_⟩
    · simp only [hc, if_false]
    · rw [if_pos hp]

theorem adjustHistory_length (h s : List Message) (hs : adjustHistory h = .ok s) :
    s.length ≤ 9 := by
  obtain ⟨s1, hs1, _, hchar⟩ := adjustHistory_spec h
  rw [hs1] at hs
  cases hs
  split at hchar
  · rename_i hp
    rw [hchar]; omega
  · omega

theorem updateHistory_ok (store : Store) (userID : Int) (u a : Message) :
    ∃ s, adjustHistory (store userID) = .ok s ∧
      updateHistoryWithResponse store userID u a = .ok (store.set userID (s ++ [u, a])) := by
  obtain ⟨s, hs, _⟩ := adjustHistory_spec (store userID)
  exact ⟨s, hs, by simp only [updateHistoryWithResponse, hs]⟩

theorem Store.set_same (store : Store) (userID : Int) (messages : List Message) :
    store.set userID messages userID = messages := by
  simp [Store.set]

theorem Store.set_other (store : Store) (userID k : Int) (messages : List Message)
    (hk : k ≠ userID) : store.set userID messages k = store k := by
  simp [Store.set, hk]

theorem runUpdates_ok (store : Store) (calls : List (Int × Message × Message)) :
    ∃ store1, runUpdates store calls = .ok store1 := by
  induction calls generalizing store with
  | nil => exact ⟨store, rfl⟩
  | cons c calls ih =>
    obtain ⟨k, m1, m2⟩ := c
    obtain ⟨s, _, hupd⟩ := updateHistory_ok store k m1 m2
    obtain ⟨store2, h2⟩ := ih (store.set k (s ++ [m1, m2]))
    exact ⟨store2, by simp only [runUpdates, hupd, h2]⟩

theorem runUpdates_append (store : Store) (calls : List (Int × Message × Message))
    (userID : Int) (u a : Message) (store1 : Store)
    (h : runUpdates store calls = .ok store1) :
    runUpdates store (calls ++ [(userID, u, a)])
      = updateHistoryWithResponse store1 userID u a := by
  induction calls generalizing store with
  | nil =>
    simp only [runUpdates] at h
    cases h
    obtain ⟨s, _, hupd⟩ := updateHistory_ok store1 userID u a
    simp only [List.nil_append, runUpdates, hupd]
  | cons c calls ih =>
    obtain ⟨k, m1, m2⟩ := c
    obtain ⟨s, _, hupd⟩ := updateHistory_ok store k m1 m2
    simp only [List.cons_append, runUpdates, hupd] at h ⊢
    exact ih _ h

/-- Every history of a reachable store has at most eleven entries. -/
theorem reachable_length (store : Store) (h : Reachable store) (k : Int) :
    (store k).length ≤ 11 := by
  obtain ⟨calls, hcalls⟩ := h
  induction calls using List.reverseRecOn generalizing store with
  | nil =>
    simp only [runUpdates] at hcalls
    cases hcalls
    simp [emptyStore]
  | append_singleton calls c ih =>
    obtain ⟨userID, u, a⟩ := c
    obtain ⟨store1, hprev⟩ := runUpdates_ok emptyStore calls
    rw [runUpdates_append _ _ _ _ _ _ hprev] at hcalls
    obtain ⟨s, hs, hupd⟩ := updateHistory_ok store1 userID u a
    rw [hupd] at hcalls
    cases hcalls
    by_cases hk : k = userID
    · subst hk
      rw [Store.set_same]
      have := adjustHistory_length _ _ hs
      simp only [List.length_append, List.length_cons, List.length_nil]
      omega
    · rw [Store.set_other _ _ _ _ hk]
      exact ih store1 hprev

theorem reachable_step (store : Store) (h : Reachable store) (userID : Int) (u a : Message)
    (store1 : Store) (hupd : updateHistoryWithResponse store userID u a = .ok store1) :
    Reachable store1 := by
  obtain ⟨calls, hcalls⟩ := h
  exact ⟨calls ++ [(userID, u, a)], by rw [runUpdates_append _ _ _ _ _ _ hcalls, hupd]⟩

/-- C1, as amended: from a store reachable from the empty map, every call of
`updateHistoryWithResponse` returns normally, and the history it stores for the
user has at most eleven entries (at most nine retained, two appended); the new
store is reachable again, and all its histories have at most eleven entries. -/
theorem updateHistory_length_le_eleven (store : Store) (h : Reachable store)
    (userID : Int) (userMessage assistantMessage : Message) :
    ∃ store1, updateHistoryWithResponse store userID userMessage assistantMessage = .ok store1 ∧
      (store1 userID).length ≤ 11 ∧ Reachable store1 ∧ ∀ k, (store1 k).length ≤ 11 := by
  obtain ⟨s, _, hupd⟩ := updateHistory_ok store userID userMessage assistantMessage
  have hr := reachable_step store h userID userMessage assistantMessage _ hupd
  exact ⟨_, hupd, reachable_length _ hr userID, hr, reachable_length _ hr⟩

theorem updateHistory_length_le_eleven_witness :
    Reachable emptyStore ∧
    ∃ store1, updateHistoryWithResponse emptyStore 1 (sampleEntry "user" 5)
        (sampleEntry "assistant" 7) = .ok store1 ∧
      (store1 1).length ≤ 11 ∧ Reachable store1 ∧ ∀ k, (store1 k).length ≤ 11 :=
  ⟨⟨[], rfl⟩, updateHistory_length_le_eleven emptyStore ⟨[], rfl⟩ 1 _ _⟩

/-- C1, as stated, fails: after five exchanges the stored history of the user
has ten entries and the store is reachable; the sixth call evicts one entry and
appends two, so the history it stores has eleven entries, more than ten. -/
theorem updateHistory_length_eleven_reached :
    Reachable (storeAfter fiveExchanges) ∧
    (storeAfter fiveExchanges 1).length = 10 ∧
    ∃ store1, updateHistoryWithResponse (storeAfter fiveExchanges) 1
        (sampleEntry "user" 5) (sampleEntry "assistant" 7) = .ok store1 ∧
      (store1 1).length = 11 ∧ ¬ (store1 1).length ≤ 10 :=
  ⟨⟨fiveExchanges, rfl⟩, by decide, storeAfter sixExchanges, rfl, by decide, by decide⟩

/-- The costs of a history are non-negative and their plain sum fits in an
`int`: then the running total of every suffix is its plain sum. -/
theorem sumTokens_suffix (h : List Message) (hpos : ∀ m ∈ h, 0 ≤ m.Tokens)
    (hfit : costSum h < ((2 ^ (intSize - 1) : Nat) : Int)) (t : List Message) (ht : t <:+ h) :
    sumTokens t = costSum t := by
  have hnonneg : ∀ l : List Message, (∀ m ∈ l, 0 ≤ m.Tokens) → 0 ≤ costSum l := by
    intro l hl
    induction l with
    | nil => simp [costSum]
    | cons m ms ih =>
      have h1 := hl m (List.mem_cons_self _ _)
      have h2 := ih (fun x hx => hl x (List.mem_cons_of_mem _ hx))
      simp only [costSum, List.map_cons, List.sum_cons] at h2 ⊢
      omega
  obtain ⟨z, hz⟩ := ht
  have hsplit : costSum h = costSum z + costSum t := by
    rw [← hz]; simp [costSum]
  have hz0 := hnonneg z (fun m hm => hpos m (by rw [← hz]; exact List.mem_append_left _ hm))
  have ht0 := hnonneg t (fun m hm => hpos m (by rw [← hz]; exact List.mem_append_right _ hm))
  exact sumTokens_eq_costSum t (by omega) (by omega)

/-- C2, as stated, fails: after one exchange for which the service reported
2^62 prompt tokens and 2^62 completion tokens, the history has two entries and
a cumulative cost of 2^63, above 10000 and above 15000; the only suffix of
cumulative cost at most 15000 is the empty one. Yet the running `int` total
wraps around to a negative number, no entry is evicted, and the next call
stores the whole prior history followed by the new pair. -/
theorem updateHistory_cost_wraps :
    Reachable (storeAfter hugeExchange) ∧
    storeAfter hugeExchange 1 = [hugeEntry "user", hugeEntry "assistant"] ∧
    costSum (storeAfter hugeExchange 1) = 9223372036854775808 ∧
    sumTokens (storeAfter hugeExchange 1) = -9223372036854775808 ∧
    ¬ ((storeAfter hugeExchange 1).length < 10 ∧
        costSum (storeAfter hugeExchange 1) ≤ 10000) ∧
    ¬ costSum (storeAfter hugeExchange 1) ≤ 15000 ∧
    (∀ t, t <:+ storeAfter hugeExchange 1 → costSum t ≤ 15000 → t = []) ∧
    ∃ store1, updateHistoryWithResponse (storeAfter hugeExchange) 1
        (sampleEntry "user" 5) (sampleEntry "assistant" 7) = .ok store1 ∧
      store1 1 = storeAfter hugeExchange 1
        ++ [sampleEntry "user" 5, sampleEntry "assistant" 7] := by
  have hh : storeAfter hugeExchange 1 = [hugeEntry "user", hugeEntry "assistant"] := by decide
  refine ⟨⟨hugeExchange, rfl⟩, hh, by decide, by decide, by decide, by decide, ?_,
    (storeAfter hugeExchange).set 1 (storeAfter hugeExchange 1
      ++ [sampleEntry "user" 5, sampleEntry "assistant" 7]), rfl, by decide⟩
  intro t ht hcost
  rw [hh] at ht
  rcases List.suffix_cons_iff.mp ht with rfl | ht
  · revert hcost; decide
  rcases List.suffix_cons_iff.mp ht with rfl | ht
  · revert hcost; decide
  · exact List.eq_nil_of_suffix_nil ht

/-- C2, as amended: the history stored by `updateHistoryWithResponse` is
`s ++ [u, a]` with `s` a suffix of the prior history `h`, and other users keep
their history: `s = h` when `h` has fewer than 10 entries and a total of at
most 10000, and otherwise `s` is the longest suffix of `h` with fewer than 10
entries and a total of at most 15000, where the total is the running total the
code keeps in an `int` (`sumTokens`, the sum of the costs wrapped around at
2^63). When the costs of `h` are non-negative and their sum is below 2^63, that
total is the cumulative token cost for every suffix, and the same holds with
the cumulative token cost (`costSum`). -/
theorem updateHistory_keeps_longest_suffix (store : Store) (userID : Int)
    (userMessage assistantMessage : Message) :
    ∃ store1 s, updateHistoryWithResponse store userID userMessage assistantMessage = .ok store1 ∧
      store1 userID = s ++ [userMessage, assistantMessage] ∧
      (∀ k, k ≠ userID → store1 k = store k) ∧
      s <:+ store userID ∧
      (if (store userID).length < 10 ∧ sumTokens (store userID) ≤ 10000 then s = store userID
       else s.length < 10 ∧ sumTokens s ≤ 15000 ∧
        ∀ t, t <:+ store userID → t.length < 10 → sumTokens t ≤ 15000 →
          t.length ≤ s.length) ∧
      ((∀ m ∈ store userID, 0 ≤ m.Tokens) →
        costSum (store userID) < ((2 ^ (intSize - 1) : Nat) : Int) →
        (∀ t, t <:+ store userID → sumTokens t = costSum t) ∧
        (if (store userID).length < 10 ∧ costSum (store userID) ≤ 10000 then s = store userID
         else s.length < 10 ∧ costSum s ≤ 15000 ∧
          ∀ t, t <:+ store userID → t.length < 10 → costSum t ≤ 15000 →
            t.length ≤ s.length)) := by
  obtain ⟨s, hs, hsuf, hchar⟩ := adjustHistory_spec (store userID)
  refine ⟨store.set userID (s ++ [userMessage, assistantMessage]), s, ?_,
    Store.set_same _ _ _, fun k hk => Store.set_other _ _ _ _ hk, hsuf, hchar, ?_⟩
  · simp only [updateHistoryWithResponse, hs]
  · intro hpos hfit
    have heq := sumTokens_suffix (store userID) hpos hfit
    refine ⟨heq, ?_⟩
    rw [heq _ (List.suffix_refl _), heq s hsuf] at hchar
    by_cases hc : (store userID).length < 10 ∧ costSum (store userID) ≤ 10000
    · rw [if_pos hc] at hchar ⊢
      exact hchar
    · rw [if_neg hc] at hchar ⊢
      exact ⟨hchar.1, hchar.2.1, fun t ht hl hcost =>
        hchar.2.2 t ht hl (by rw [heq t ht]; exact hcost)⟩

theorem updateHistory_keeps_longest_suffix_witness :
    (∀ m ∈ storeAfter fiveExchanges 1, 0 ≤ m.Tokens) ∧
    costSum (storeAfter fiveExchanges 1) < ((2 ^ (intSize - 1) : Nat) : Int) ∧
    ¬ ((storeAfter fiveExchanges 1).length < 10 ∧
        costSum (storeAfter fiveExchanges 1) ≤ 10000) ∧
    ∃ store1 s, updateHistoryWithResponse (storeAfter fiveExchanges) 1
        (sampleEntry "user" 5) (sampleEntry "assistant" 7) = .ok store1 ∧
      store1 1 = s ++ [sampleEntry "user" 5, sampleEntry "assistant" 7] ∧
      s <:+ storeAfter fiveExchanges 1 ∧
      s.length < 10 ∧ costSum s ≤ 15000 ∧
      ∀ t, t <:+ storeAfter fiveExchanges 1 → t.length < 10 → costSum t ≤ 15000 →
        t.length ≤ s.length := by
  have hpos : ∀ m ∈ storeAfter fiveExchanges 1, 0 ≤ m.Tokens := by decide
  have hfit : costSum (storeAfter fiveExchanges 1) < ((2 ^ (intSize - 1) : Nat) : Int) := by
    decide
  have hc : ¬ ((storeAfter fiveExchanges 1).length < 10 ∧
      costSum (storeAfter fiveExchanges 1) ≤ 10000) := by decide
  obtain ⟨store1, s, h1, h2, _, h4, _, h6⟩ :=
    updateHistory_keeps_longest_suffix (storeAfter fiveExchanges) 1
      (sampleEntry "user" 5) (sampleEntry "assistant" 7)
  have h7 := (h6 hpos hfit).2
  rw [if_neg hc] at h7
  exact ⟨hpos, hfit, hc, store1, s, h1, h2, h4, h7⟩

/-- C10: for every prior history, whatever the token costs, the eviction loop
never reads `messages[0]` of an empty slice, whatever the fuel; with more fuel
than the history is long it stops, at a suffix of the history, and its running
total is then the total of the entries retained. On the empty slice the total
is 0 and the loop stops at once. The whole update returns normally. -/
theorem evictLoop_terminates_without_panic (h : List Message) :
    (∀ fuel, evictLoop fuel (sumTokens h) h ≠ .indexOutOfRange) ∧
    (∀ extra, ∃ s, evictLoop (h.length + 1 + extra) (sumTokens h) h = .ok (sumTokens s, s) ∧
      s <:+ h) ∧
    (∀ fuel, evictLoop (fuel + 1) (sumTokens []) [] = .ok (0, [])) ∧
    (∃ s, adjustHistory h = .ok s) := by
  refine ⟨?_, ?_, ?_, ?_⟩
  · intro fuel
    induction fuel generalizing h with
    | zero => simp [evictLoop]
    | succ fuel ih =>
      unfold evictLoop
      split
      · rename_i hc
        cases h with
        | nil => simp [sumTokens_nil] at hc
        | cons first rest =>
          simp only [sumTokens_tail]
          exact ih rest
      · simp
  · intro extra
    obtain ⟨s, hs, hsuf, _⟩ := evictLoop_spec (h.length + 1 + extra) h (by omega)
    exact ⟨s, hs, hsuf⟩
  · intro fuel
    simp [evictLoop, sumTokens_nil]
  · obtain ⟨s, hs, _⟩ := adjustHistory_spec h
    exact ⟨s, hs⟩

/-! ## Token estimate -/

theorem sampleLib_agreesOnAscii : sampleLib.AgreesOnAscii := by
  intro c hc
  have key : ∀ n : Nat, n < 128 →
      (decide (0x4E00 ≤ n) && decide (n ≤ 0x9FA5)) = false ∧
      (decide (n ∈ [9, 10, 11, 12, 13, 32, 0x85, 0xA0, 0x1680, 0x2028, 0x2029, 0x202F,
        0x205F, 0x3000]) || (decide (0x2000 ≤ n) && decide (n ≤ 0x200A)))
        = decide (n ∈ [9, 10, 11, 12, 13, 32]) := by
    decide
  exact ⟨(key c.toNat hc).1, rfl, (key c.toNat hc).2⟩

/-- ASCII letters are no punctuation. -/
theorem asciiIsPunct_of_isAlpha (c : Char) (h : c.isAlpha = true) :
    c.toNat < 128 ∧ asciiIsPunct c = false := by
  have hv : (65 ≤ c.toNat ∧ c.toNat ≤ 90) ∨ (97 ≤ c.toNat ∧ c.toNat ≤ 122) := by
    simp only [Char.isAlpha, Char.isUpper, Char.isLower, Bool.or_eq_true, Bool.and_eq_true,
      decide_eq_true_eq] at h
    rcases h with ⟨h1, h2⟩ | ⟨h1, h2⟩
    · exact Or.inl ⟨h1, h2⟩
    · exact Or.inr ⟨h1, h2⟩
  have key : ∀ n : Nat, ((65 ≤ n ∧ n ≤ 90) ∨ (97 ≤ n ∧ n ≤ 122)) →
      decide (n ∈ [33, 34, 35, 37, 38, 39, 40, 41, 42, 44, 45, 46, 47, 58, 59, 63, 64,
        91, 92, 93, 95, 123, 125]) = false := by
    intro n hn
    simp only [List.mem_cons, List.mem_singleton, List.not_mem_nil, or_false,
      decide_eq_false_iff_not]
    omega
  exact ⟨by omega, key _ hv⟩

theorem isWordRune_of_isAlpha (lib : GoLib) (hlib : lib.AgreesOnAscii) (c : Char)
    (h : c.isAlpha = true) : isWordRune lib c = true := by
  obtain ⟨h128, hp⟩ := asciiIsPunct_of_isAlpha c h
  obtain ⟨h1, h2, _⟩ := hlib c h128
  have hsp : c ≠ ' ' := by
    rintro rfl
    revert h; decide
  simp [isWordRune, h1, h2, hp, hsp]

/-- No piece of a split holds a code point at which the text was cut. -/
theorem splitOnP_piece_clean (p : Char → Bool) (l : Str) :
    ∀ piece ∈ l.splitOnP p, ∀ c ∈ piece, p c = false := by
  induction l with
  | nil => simp
  | cons x xs ih =>
    rw [List.splitOnP_cons]
    by_cases hx : p x = true
    · simp only [hx, if_true, List.mem_cons]
      rintro piece (rfl | hp) c hc
      · simp at hc
      · exact ih piece hp c hc
    · simp only [hx, if_false]
      cases hs : List.splitOnP p xs with
      | nil => exact absurd hs (List.splitOnP_ne_nil _ _)
      | cons hd tl =>
        rw [hs] at ih
        intro piece hpiece c hc
        simp only [List.modifyHead, Bool.false_eq_true, if_false, List.mem_cons] at hpiece
        rcases hpiece with hp | hp
        · rw [hp] at hc
          simp only [List.mem_cons] at hc
          rcases hc with hc | hc
          · rw [hc]; simpa using hx
          · exact ih hd (List.mem_cons_self _ _) c hc
        · exact ih piece (List.mem_cons_of_mem _ hp) c hc

/-- Every run counted by `wordRuns` is a non-empty sequence of word code points. -/
theorem wordRuns_are_runs (lib : GoLib) (text : Str) :
    ∀ run ∈ wordRuns lib text, run ≠ [] ∧ ∀ c ∈ run, isWordRune lib c = true := by
  intro run hrun
  simp only [wordRuns, List.mem_filter, Bool.not_eq_true', List.isEmpty_eq_false] at hrun
  refine ⟨hrun.2, fun c hc => ?_⟩
  have := splitOnP_piece_clean (fun c => !isWordRune lib c) text run hrun.1 c hc
  simpa using this

theorem roughStep_foldl_fst (lib : GoLib) (text : Str) (count : ℚ) (inWord : Bool) :
    (text.foldl (roughStep lib) (count, inWord)).1
      = count + (text.foldl (roughStep lib) (0, inWord)).1 := by
  induction text generalizing count inWord with
  | nil => simp
  | cons c cs ih =>
    simp only [List.foldl_cons, roughStep]
    split
    · rw [ih (count + 1.5), ih (0 + 1.5)]; ring
    · split
      · rw [ih count]
      · split
        · rw [ih (count + 1), ih (0 + 1)]; ring
        · rw [ih count]

/-- The first piece of a split is empty exactly when the text does not begin
with a word code point. -/
theorem splitOnP_head_isEmpty (lib : GoLib) (text : Str) :
    ∃ hd tl, text.splitOnP (fun c => !isWordRune lib c) = hd :: tl ∧
      (hd.isEmpty = !(text.head?.map (isWordRune lib)).getD false) := by
  cases text with
  | nil => exact ⟨[], [], by simp, by simp⟩
  | cons c cs =>
    rw [List.splitOnP_cons]
    by_cases hw : isWordRune lib c = true
    · cases hs : List.splitOnP (fun c => !isWordRune lib c) cs with
      | nil => exact absurd hs (List.splitOnP_ne_nil _ _)
      | cons hd tl =>
        exact ⟨c :: hd, tl, by simp [hw, List.modifyHead], by simp [hw]⟩
    · simp only [Bool.not_eq_true] at hw
      exact ⟨[], List.splitOnP (fun c => !isWordRune lib c) cs, by simp [hw], by simp [hw]⟩

theorem wordRuns_cons (lib : GoLib) (c : Char) (cs : Str) :
    (wordRuns lib (c :: cs)).length =
      if isWordRune lib c = true then
        (wordRuns lib cs).length + (if (cs.head?.map (isWordRune lib)).getD false = true then 0 else 1)
      else (wordRuns lib cs).length := by
  obtain ⟨hd, tl, hs, hhd⟩ := splitOnP_head_isEmpty lib cs
  unfold wordRuns
  rw [List.splitOnP_cons, hs]
  by_cases hw : isWordRune lib c = true
  · simp only [hw, Bool.not_true, Bool.false_eq_true, if_false, List.modifyHead, if_true]
    cases hh : (cs.head?.map (isWordRune lib)).getD false
    · rw [hh] at hhd
      simp only [Bool.not_false, List.isEmpty_eq_true] at hhd
      subst hhd
      simp
    · rw [hh] at hhd
      simp only [Bool.not_true] at hhd
      simp [List.filter_cons, hhd]
  · simp only [Bool.not_eq_true] at hw
    simp [hw, List.filter_cons]

/-- The loop of `RoughEstimateTokens` from any state: 1.5 per Han code point
and 1 per run of word code points, less the run the loop is already inside. -/
theorem roughStep_foldl (lib : GoLib) (text : Str) (inWord : Bool) :
    (text.foldl (roughStep lib) (0, inWord)).1
      = 1.5 * (hanCount lib text : ℚ) + ((wordRuns lib text).length : ℚ)
        - (if inWord = true ∧ (text.head?.map (isWordRune lib)).getD false = true then 1 else 0) := by
  induction text generalizing inWord with
  | nil => simp [hanCount, wordRuns]
  | cons c cs ih =>
    rw [wordRuns_cons]
    simp only [List.foldl_cons, roughStep, hanCount, List.countP_cons, List.head?_cons,
      Option.map_some', Option.getD_some]
    by_cases hh : lib.unicodeIsHan c = true
    · have hw : isWordRune lib c = false := by simp [isWordRune, hh]
      simp only [hh, if_true, hw, Bool.false_eq_true, if_false, and_false]
      rw [roughStep_foldl_fst, ih false]
      simp only [hanCount, Bool.false_eq_true, false_and, if_false]
      push_cast
      ring
    · simp only [Bool.not_eq_true] at hh
      by_cases hs : c = ' ' ∨ lib.unicodeIsPunct c = true
      · have hw : isWordRune lib c = false := by
          rcases hs with hs | hs <;> simp [isWordRune, hs]
        simp only [hh, Bool.false_eq_true, if_false, hs, if_true, hw, and_false]
        rw [ih false]
        simp only [hanCount, Bool.false_eq_true, false_and, if_false]
        push_cast
        ring
      · have hw : isWordRune lib c = true := by
          simp only [not_or, Bool.not_eq_true] at hs
          simp [isWordRune, hh, hs.1, hs.2]
        simp only [hh, Bool.false_eq_true, if_false, hs, hw, if_true, and_true]
        cases inWord
        · simp only [if_true, Bool.false_eq_true, if_false]
          rw [roughStep_foldl_fst, ih true]
          simp only [hanCount, true_and]
          split <;> (push_cast; ring)
        · simp only [Bool.true_eq_false, if_false, if_true]
          rw [ih true]
          simp only [hanCount, true_and]
          split <;> (push_cast; ring)

/-- The estimate in closed form. -/
theorem roughEstimate_closed_form (lib : GoLib) (text : Str) :
    RoughEstimateTokens lib text
      = 1.5 * (hanCount lib text : ℚ) + ((wordRuns lib text).length : ℚ) := by
  unfold RoughEstimateTokens
  rw [roughStep_foldl]
  simp

/-- A non-empty run of word code points leaves the loop inside a word, having
counted one token unless it was inside a word already. -/
theorem roughStep_foldl_word (lib : GoLib) (w : Str) (hw : ∀ c ∈ w, isWordRune lib c = true)
    (hne : w ≠ []) (count : ℚ) (inWord : Bool) :
    w.foldl (roughStep lib) (count, inWord)
      = (if inWord = true then count else count + 1, true) := by
  induction w generalizing count inWord with
  | nil => exact absurd rfl hne
  | cons c cs ih =>
    have hc : isWordRune lib c = true := hw c (List.mem_cons_self _ _)
    simp only [isWordRune, Bool.and_eq_true, Bool.not_eq_true', Bool.or_eq_false_iff,
      beq_eq_false_iff_ne] at hc
    obtain ⟨h1, h2, h3⟩ := hc
    have hstep : roughStep lib (count, inWord) c
        = (if inWord = true then count else count + 1, true) := by
      cases inWord <;> simp [roughStep, h1, h2, h3]
    rw [List.foldl_cons, hstep]
    by_cases hcs : cs = []
    · subst hcs; rfl
    · rw [ih (fun d hd => hw d (List.mem_cons_of_mem _ hd)) hcs]
      simp

theorem roughStep_space (lib : GoLib) (hlib : lib.AgreesOnAscii) (state : ℚ × Bool) :
    roughStep lib state ' ' = (state.1, false) := by
  have h := (hlib ' ' (by decide)).1
  simp [roughStep, h]

/-- C3: the estimate of the empty text is 0, of a single Han code point 1.5,
of "hello world" 2; for every text it is 1.5 times the number of Han code
points plus the number of maximal runs of code points that are neither Han,
nor the space, nor punctuation. The Unicode tables are those of the Go
library, of which only the ASCII part is assumed. -/
theorem roughEstimate_han_and_runs (lib : GoLib) (hlib : lib.AgreesOnAscii) :
    RoughEstimateTokens lib [] = 0 ∧
    (∀ c, lib.unicodeIsHan c = true → RoughEstimateTokens lib [c] = 1.5) ∧
    RoughEstimateTokens lib "hello world".toList = 2 ∧
    ∀ text, RoughEstimateTokens lib text
      = 1.5 * (hanCount lib text : ℚ) + ((wordRuns lib text).length : ℚ) := by
  refine ⟨by simp [RoughEstimateTokens], ?_, ?_, roughEstimate_closed_form lib⟩
  · intro c hc
    simp [RoughEstimateTokens, roughStep, hc]
  · have hword : ∀ w : Str, (∀ c ∈ w, c.isAlpha = true) → ∀ c ∈ w, isWordRune lib c = true :=
      fun w hw c hc => isWordRune_of_isAlpha lib hlib c (hw c hc)
    have e : "hello world".toList = "hello".toList ++ ' ' :: "world".toList := by decide
    unfold RoughEstimateTokens
    rw [e, List.foldl_append, List.foldl_cons,
      roughStep_foldl_word lib _ (hword _ (by decide)) (by decide),
      roughStep_space lib hlib,
      roughStep_foldl_word lib _ (hword _ (by decide)) (by decide)]
    norm_num

theorem roughEstimate_han_and_runs_witness :
    sampleLib.AgreesOnAscii ∧
    wordRuns sampleLib "hello world".toList = ["hello".toList, "world".toList] ∧
    wordRuns sampleLib "咕咕mouse, 你好 GPT4!".toList = ["mouse".toList, "GPT4".toList] ∧
    hanCount sampleLib "咕咕mouse, 你好 GPT4!".toList = 4 ∧
    (RoughEstimateTokens sampleLib [] = 0 ∧
    (∀ c, sampleLib.unicodeIsHan c = true → RoughEstimateTokens sampleLib [c] = 1.5) ∧
    RoughEstimateTokens sampleLib "hello world".toList = 2 ∧
    ∀ text, RoughEstimateTokens sampleLib text
      = 1.5 * (hanCount sampleLib text : ℚ) + ((wordRuns sampleLib text).length : ℚ)) :=
  ⟨sampleLib_agreesOnAscii, by decide, by decide, by decide,
    roughEstimate_han_and_runs sampleLib sampleLib_agreesOnAscii⟩

/-- C8, as stated, fails: the tab is a white-space code point, yet it is
neither Han, nor the space character, nor punctuation, so the loop treats it as
a word character: "a<tab>b" is one run, not two, and a lone tab estimates to 1, not 0. -/
theorem roughEstimate_tab_joins_words :
    sampleLib.unicodeIsSpace (Char.ofNat 9) = true ∧
    RoughEstimateTokens sampleLib ['a', Char.ofNat 9, 'b'] = 1 ∧
    RoughEstimateTokens sampleLib ['a', Char.ofNat 9, 'b'] ≠ 2 ∧
    RoughEstimateTokens sampleLib [Char.ofNat 9] = 1 ∧
    RoughEstimateTokens sampleLib [Char.ofNat 9] ≠ 0 := by
  refine ⟨by decide, ?_, ?_, ?_, ?_⟩ <;>
    simp [RoughEstimateTokens, roughStep, sampleLib, asciiIsPunct]

/-- C8, as amended: only the space character U+0020 (with punctuation) contributes
0 and resets the in-word state. Two non-empty words of ASCII letters joined by
a space estimate to 2, and a text of spaces to 0. A code point other than the
space that is neither Han nor punctuation, white space or not, is a word
character: it joins the two words into one run, estimated at 1, and a non-empty
text made of such code points estimates to 1; the tab, the line feed and the
carriage return are such code points. -/
theorem roughEstimate_only_space_resets (lib : GoLib) (hlib : lib.AgreesOnAscii)
    (w1 w2 : Str) (h1 : w1 ≠ []) (h2 : w2 ≠ [])
    (hw1 : ∀ c ∈ w1, c.isAlpha = true) (hw2 : ∀ c ∈ w2, c.isAlpha = true) :
    RoughEstimateTokens lib (w1 ++ [' '] ++ w2) = 2 ∧
    (∀ n, RoughEstimateTokens lib (List.replicate n ' ') = 0) ∧
    (∀ c, c ≠ ' ' → lib.unicodeIsHan c = false → lib.unicodeIsPunct c = false →
      RoughEstimateTokens lib (w1 ++ [c] ++ w2) = 1 ∧
      ∀ n, RoughEstimateTokens lib (List.replicate (n + 1) c) = 1) ∧
    (∀ c ∈ [Char.ofNat 9, Char.ofNat 10, Char.ofNat 13],
      RoughEstimateTokens lib (w1 ++ [c] ++ w2) = 1) := by
  have hword1 : ∀ c ∈ w1, isWordRune lib c = true :=
    fun c hc => isWordRune_of_isAlpha lib hlib c (hw1 c hc)
  have hword2 : ∀ c ∈ w2, isWordRune lib c = true :=
    fun c hc => isWordRune_of_isAlpha lib hlib c (hw2 c hc)
  have hjoin : ∀ c, c ≠ ' ' → lib.unicodeIsHan c = false → lib.unicodeIsPunct c = false →
      RoughEstimateTokens lib (w1 ++ [c] ++ w2) = 1 := by
    intro c hc hh hp
    have hcw : isWordRune lib c = true := by simp [isWordRune, hh, hp, hc]
    have hall : ∀ d ∈ w1 ++ [c] ++ w2, isWordRune lib d = true := by
      intro d hd
      simp only [List.append_assoc, List.singleton_append, List.mem_append, List.mem_cons] at hd
      rcases hd with hd | rfl | hd
      · exact hword1 d hd
      · exact hcw
      · exact hword2 d hd
    unfold RoughEstimateTokens
    rw [roughStep_foldl_word lib _ hall (by simp)]
    norm_num
  refine ⟨?_, ?_, ?_, ?_⟩
  · unfold RoughEstimateTokens
    rw [List.append_assoc, List.singleton_append, List.foldl_append, List.foldl_cons,
      roughStep_foldl_word lib _ hword1 h1, roughStep_space lib hlib,
      roughStep_foldl_word lib _ hword2 h2]
    norm_num
  · intro n
    unfold RoughEstimateTokens
    have : ∀ state : ℚ × Bool, (List.replicate n ' ').foldl (roughStep lib) state
        = if n = 0 then state else (state.1, false) := by
      induction n with
      | zero => intro state; simp
      | succ n ih =>
        intro state
        rw [List.replicate_succ, List.foldl_cons, roughStep_space lib hlib, ih]
        split <;> simp
    rw [this]
    split <;> rfl
  · intro c hc hh hp
    refine ⟨hjoin c hc hh hp, fun n => ?_⟩
    have hcw : isWordRune lib c = true := by simp [isWordRune, hh, hp, hc]
    unfold RoughEstimateTokens
    rw [roughStep_foldl_word lib _ (fun d hd => by rw [(List.mem_replicate.mp hd).2]; exact hcw)
      (by simp)]
    norm_num
  · intro c hc
    have hascii : c.toNat < 128 ∧ c ≠ ' ' ∧ asciiIsPunct c = false := by
      simp only [List.mem_cons, List.mem_singleton, List.not_mem_nil, or_false] at hc
      rcases hc with rfl | rfl | rfl <;> decide
    obtain ⟨hh, hp, _⟩ := hlib c hascii.1
    exact hjoin c hascii.2.1 hh (hp.trans hascii.2.2)

theorem roughEstimate_only_space_resets_witness :
    sampleLib.AgreesOnAscii ∧ "hello".toList ≠ [] ∧ "world".toList ≠ [] ∧
    (∀ c ∈ "hello".toList, c.isAlpha = true) ∧ (∀ c ∈ "world".toList, c.isAlpha = true) ∧
    RoughEstimateTokens sampleLib ("hello".toList ++ [' '] ++ "world".toList) = 2 ∧
    RoughEstimateTokens sampleLib ("hello".toList ++ [Char.ofNat 9] ++ "world".toList) = 1 :=
  have h := roughEstimate_only_space_resets sampleLib sampleLib_agreesOnAscii
    "hello".toList "world".toList (by decide) (by decide) (by decide) (by decide)
  ⟨sampleLib_agreesOnAscii, by decide, by decide, by decide, by decide, h.1,
    h.2.2.2 (Char.ofNat 9) (by decide)⟩

/-! ## Regular expressions and the parser -/

theorem matchHere_lit_cons (c : Char) (captured : Bool) (rest : Regexp) (x : Char) (xs : Str) :
    matchHere (⟨.lit c, captured⟩ :: rest) (x :: xs)
      = if x = c then (matchHere rest xs).map (Match.consume captured x) else none := rfl

theorem matchHere_plus_cons (cls : Char → Bool) (captured : Bool) (rest : Regexp) (x : Char)
    (xs : Str) :
    matchHere (⟨.plus cls, captured⟩ :: rest) (x :: xs)
      = if cls x = true then
          (starLoop cls captured (matchHere rest) xs).map (Match.consume captured x)
        else none := rfl

theorem matchHere_star (cls : Char → Bool) (captured : Bool) (rest : Regexp) (s : Str) :
    matchHere (⟨.star cls, captured⟩ :: rest) s = starLoop cls captured (matchHere rest) s := rfl

theorem starLoop_cons (cls : Char → Bool) (captured : Bool) (next : Str → Option Match)
    (c : Char) (cs : Str) :
    starLoop cls captured next (c :: cs)
      = if cls c = true then
          match starLoop cls captured next cs with
          | some m => some (m.consume captured c)
          | none => next (c :: cs)
        else next (c :: cs) := rfl

theorem starLoop_of_not (cls : Char → Bool) (captured : Bool) (next : Str → Option Match)
    (c : Char) (cs : Str) (hc : cls c = false) :
    starLoop cls captured next (c :: cs) = next (c :: cs) := by
  rw [starLoop_cons, hc]; rfl

theorem matchHere_lits_append (p : Str) (rest : Regexp) (s : Str) :
    matchHere (p.map (fun c => (⟨.lit c, false⟩ : Item)) ++ rest) (p ++ s)
      = (matchHere rest s).map (fun m => (m.1, m.2 + p.length)) := by
  induction p with
  | nil => simp
  | cons c cs ih =>
    rw [List.map_cons, List.cons_append, List.cons_append, matchHere_lit_cons, if_pos rfl, ih]
    cases matchHere rest s <;> simp [Match.consume, Nat.add_assoc]

theorem matchHere_lits_none (p : Str) (rest : Regexp) (s : Str) (h : ¬ p <+: s) :
    matchHere (p.map (fun c => (⟨.lit c, false⟩ : Item)) ++ rest) s = none := by
  induction p generalizing s with
  | nil => exact absurd (List.nil_prefix) h
  | cons c cs ih =>
    cases s with
    | nil => rfl
    | cons x xs =>
      rw [List.map_cons, List.cons_append, matchHere_lit_cons]
      split
      · rename_i hx
        subst hx
        rw [ih xs (fun hp => h ((List.prefix_cons_inj x).mpr hp))]
        rfl
      · rfl

/-- A repetition keeps all the code points it took when the rest then matches. -/
theorem starLoop_greedy (cls : Char → Bool) (captured : Bool) (next : Str → Option Match)
    (b s : Str) (hb : ∀ c ∈ b, cls c = true) (m : Match)
    (hm : starLoop cls captured next s = some m) :
    starLoop cls captured next (b ++ s)
      = some (if captured then b ++ m.1 else m.1, m.2 + b.length) := by
  induction b with
  | nil => cases captured <;> simp [hm]
  | cons c cs ih =>
    have hc : cls c = true := hb c (List.mem_cons_self _ _)
    rw [List.cons_append, starLoop_cons, if_pos hc,
      ih (fun d hd => hb d (List.mem_cons_of_mem _ hd))]
    cases captured <;> simp [Match.consume, Nat.add_assoc]

/-- A repetition gives back everything when the rest matches at no later position. -/
theorem starLoop_none (cls : Char → Bool) (captured : Bool) (next : Str → Option Match)
    (b s : Str) (hs : starLoop cls captured next s = none)
    (hnext : ∀ y, y <:+ b → y ≠ [] → next (y ++ s) = none) :
    starLoop cls captured next (b ++ s) = none := by
  induction b with
  | nil => simpa using hs
  | cons c cs ih =>
    have hcs : starLoop cls captured next (cs ++ s) = none :=
      ih (fun y hy hne => hnext y (hy.trans (List.suffix_cons _ _)) hne)
    have hhere : next (c :: cs ++ s) = none :=
      hnext (c :: cs) (List.suffix_refl _) (by simp)
    rw [List.cons_append, starLoop_cons, hcs]
    split <;> exact hhere

theorem starLoop_backtrack (cls : Char → Bool) (captured : Bool) (next : Str → Option Match)
    (c : Char) (cs s : Str) (hs : starLoop cls captured next s = none)
    (hnext : ∀ y, y <:+ cs → y ≠ [] → next (y ++ s) = none) :
    starLoop cls captured next (c :: cs ++ s) = next (c :: cs ++ s) := by
  have hcs := starLoop_none cls captured next cs s hs hnext
  rw [List.cons_append, starLoop_cons, hcs]
  split <;> rfl

theorem replaceAllFrom_skip (re : Regexp) (repl a s : Str) :
    replaceAllFrom re repl a.length (a ++ s) = replaceAllFrom re repl 0 s := by
  induction a with
  | nil => rfl
  | cons c cs ih => simpa [replaceAllFrom] using ih

theorem findAllFrom_skip (re : Regexp) (a s : Str) :
    findAllFrom re a.length (a ++ s) = findAllFrom re 0 s := by
  induction a with
  | nil => rfl
  | cons c cs ih => simpa [findAllFrom] using ih

theorem replaceAllFrom_nomatch (re : Regexp) (repl t s : Str)
    (h : ∀ c rest, c ∈ t → matchHere re (c :: rest) = none) :
    replaceAllFrom re repl 0 (t ++ s) = t ++ replaceAllFrom re repl 0 s := by
  induction t with
  | nil => rfl
  | cons c cs ih =>
    have hc := h c (cs ++ s) (List.mem_cons_self _ _)
    have e : replaceAllFrom re repl 0 (c :: (cs ++ s))
        = c :: replaceAllFrom re repl 0 (cs ++ s) := by
      simp only [replaceAllFrom, hc]
    rw [List.cons_append, e, ih (fun d rest hd => h d rest (List.mem_cons_of_mem _ hd)),
      List.cons_append]

theorem findAllFrom_nomatch (re : Regexp) (t s : Str)
    (h : ∀ c rest, c ∈ t → matchHere re (c :: rest) = none) :
    findAllFrom re 0 (t ++ s) = findAllFrom re 0 s := by
  induction t with
  | nil => rfl
  | cons c cs ih =>
    have hc := h c (cs ++ s) (List.mem_cons_self _ _)
    have e : findAllFrom re 0 (c :: (cs ++ s)) = findAllFrom re 0 (cs ++ s) := by
      simp only [findAllFrom, hc]
    rw [List.cons_append, e, ih (fun d rest hd => h d rest (List.mem_cons_of_mem _ hd))]

theorem replaceAllFrom_match (re : Regexp) (repl a s : Str) (m : Match)
    (hm : matchHere re (a ++ s) = some m) (hlen : m.2 = a.length) (hne : a ≠ []) :
    replaceAllFrom re repl 0 (a ++ s) = repl ++ replaceAllFrom re repl 0 s := by
  cases a with
  | nil => exact absurd rfl hne
  | cons c cs =>
    rw [List.cons_append] at hm ⊢
    simp only [replaceAllFrom, hm, hlen, List.length_cons, Nat.add_sub_cancel]
    rw [replaceAllFrom_skip]

theorem findAllFrom_match (re : Regexp) (a s : Str) (m : Match)
    (hm : matchHere re (a ++ s) = some m) (hlen : m.2 = a.length) (hne : a ≠ []) :
    findAllFrom re 0 (a ++ s) = m.1 :: findAllFrom re 0 s := by
  cases a with
  | nil => exact absurd rfl hne
  | cons c cs =>
    rw [List.cons_append] at hm ⊢
    simp only [findAllFrom, hm, hlen, List.length_cons, Nat.add_sub_cancel]
    rw [findAllFrom_skip]

theorem reCQ_none_of_ne (c : Char) (rest : Str) (hc : c ≠ '[') :
    matchHere reCQ (c :: rest) = none := by
  show matchHere (⟨.lit '[', false⟩ :: _) (c :: rest) = none
  simp [matchHere, hc]

theorem reImage_none_of_ne (c : Char) (rest : Str) (hc : c ≠ '[') :
    matchHere reImage (c :: rest) = none := by
  show matchHere (⟨.lit '[', false⟩ :: _) (c :: rest) = none
  simp [matchHere, hc]

/-- The expression `reCQ` matches a whole tag whose body is not empty and holds no `]`. -/
theorem reCQ_tag (body s : Str) (hne : body ≠ []) (hb : ']' ∉ body) :
    matchHere reCQ ("[CQ:".toList ++ body ++ [']'] ++ s)
      = some ([], ("[CQ:".toList ++ body ++ [']']).length) := by
  have hre : reCQ = "[CQ:".toList.map (fun c => (⟨.lit c, false⟩ : Item))
      ++ [⟨.plus notBracket, false⟩, ⟨.lit ']', false⟩] := rfl
  cases body with
  | nil => exact absurd rfl hne
  | cons x xs =>
    have hx : notBracket x = true := by
      have : x ≠ ']' := fun h => hb (h ▸ List.mem_cons_self _ _)
      simp [notBracket, this]
    have hxs : ∀ c ∈ xs, notBracket c = true := by
      intro c hc
      have : c ≠ ']' := fun h => hb (h ▸ List.mem_cons_of_mem _ hc)
      simp [notBracket, this]
    have hend : starLoop notBracket false (matchHere [⟨.lit ']', false⟩]) (']' :: s)
        = some ([], 1) := by
      rw [starLoop_of_not _ _ _ _ _ (by decide)]
      rfl
    have hstar := starLoop_greedy notBracket false (matchHere [⟨.lit ']', false⟩]) xs
      (']' :: s) hxs _ hend
    rw [hre, List.append_assoc, List.append_assoc, matchHere_lits_append, List.cons_append,
      matchHere_plus_cons, if_pos hx, List.singleton_append, hstar]
    simp [Match.consume]
    omega

theorem Segment.body_ne_nil (seg : Segment) (h : ∀ t, seg ≠ .text t) : seg.body ≠ [] := by
  cases seg with
  | text t => exact absurd rfl (h t)
  | image before url => simp [Segment.body]
  | other type attrs => simp [Segment.body]

/-- Stripping the tags of a message made of text without `[` and of tags
without `]` inside leaves the text. -/
theorem replaceAll_reCQ_renderAll (segs : List Segment) (h : ∀ seg ∈ segs, seg.Strippable) :
    replaceAllString reCQ (renderAll segs) [] = plainText segs := by
  unfold replaceAllString
  induction segs with
  | nil => rfl
  | cons seg segs ih =>
    have ih1 := ih (fun x hx => h x (List.mem_cons_of_mem _ hx))
    have hseg := h seg (List.mem_cons_self _ _)
    have htag : ∀ sg : Segment, (∀ t, sg ≠ .text t) → ']' ∉ sg.body →
        replaceAllFrom reCQ [] 0 (("[CQ:".toList ++ sg.body ++ [']']) ++ renderAll segs)
          = plainText segs := by
      intro sg hsg hb
      rw [replaceAllFrom_match reCQ [] _ _ _ (reCQ_tag sg.body _ (sg.body_ne_nil hsg) hb) rfl
        (by simp), ih1]
      rfl
    cases seg with
    | text t =>
      simp only [renderAll, Segment.render, plainText]
      rw [replaceAllFrom_nomatch reCQ [] t _ (fun c rest hc =>
        reCQ_none_of_ne c rest (fun hcb => hseg (hcb ▸ hc))), ih1]
    | image before url =>
      exact htag (.image before url) (fun t => by simp) hseg
    | other type attrs =>
      exact htag (.other type attrs) (fun t => by simp) hseg

theorem not_prefix_of_suffix_url (url y s : Str) (hy : y <:+ url) (hb : ']' ∉ url)
    (hu : ¬ "url=".toList <:+: url) : ¬ "url=".toList <+: y ++ ']' :: s := by
  have hyb : ']' ∉ y := fun hm => hb (hy.subset hm)
  intro hp
  have e : "url=".toList = ['u', 'r', 'l', '='] := rfl
  rw [e] at hp hu
  match y, hy, hyb, hp with
  | [], _, _, hp => simp at hp
  | [a], _, _, hp => simp at hp
  | [a, b], _, _, hp => simp at hp
  | [a, b, c], _, _, hp => simp at hp
  | a :: b :: c :: d :: y1, hy, _, hp =>
    simp only [List.cons_append, List.cons_prefix_cons] at hp
    obtain ⟨rfl, rfl, rfl, rfl, _⟩ := hp
    obtain ⟨z, hz⟩ := hy
    exact hu ⟨z, y1, by rw [← hz]; simp⟩

/-- The expression `reImage` matches a whole image tag that ends with its URL
and captures the URL. -/
theorem reImage_tag (before url s : Str) (hbefore : ']' ∉ before) (hne : url ≠ [])
    (hcomma : ',' ∉ url) (hb : ']' ∉ url) (hu : ¬ "url=".toList <:+: url) :
    matchHere reImage ("[CQ:".toList ++ (Segment.image before url).body ++ [']'] ++ s)
      = some (url, ("[CQ:".toList ++ (Segment.image before url).body ++ [']']).length) := by
  have hre : reImage = "[CQ:image,".toList.map (fun c => (⟨.lit c, false⟩ : Item))
      ++ (⟨.star notBracket, false⟩ :: ("url=".toList.map (fun c => (⟨.lit c, false⟩ : Item))
        ++ [⟨.plus notCommaBracket, true⟩, ⟨.lit ']', false⟩])) := rfl
  have hin : "[CQ:".toList ++ (Segment.image before url).body ++ [']'] ++ s
      = "[CQ:image,".toList ++ (before ++ (('u' :: ("rl=".toList ++ url)) ++ ']' :: s)) := by
    simp [Segment.body]
  -- the rest of the expression, after the repetition
  let next : Str → Option Match :=
    matchHere ("url=".toList.map (fun c => (⟨.lit c, false⟩ : Item))
      ++ [⟨.plus notCommaBracket, true⟩, ⟨.lit ']', false⟩])
  have hnext_ok : next (('u' :: ("rl=".toList ++ url)) ++ ']' :: s)
      = some (url, url.length + 1 + 4) := by
    have e : ('u' :: ("rl=".toList ++ url)) ++ ']' :: s = "url=".toList ++ (url ++ ']' :: s) := by
      simp
    show matchHere _ _ = _
    rw [e, matchHere_lits_append]
    cases url with
    | nil => exact absurd rfl hne
    | cons x xs =>
      have hx : notCommaBracket x = true := by
        have h1 : x ≠ ',' := fun h => hcomma (h ▸ List.mem_cons_self _ _)
        have h2 : x ≠ ']' := fun h => hb (h ▸ List.mem_cons_self _ _)
        simp [notCommaBracket, h1, h2]
      have hxs : ∀ c ∈ xs, notCommaBracket c = true := by
        intro c hc
        have h1 : c ≠ ',' := fun h => hcomma (h ▸ List.mem_cons_of_mem _ hc)
        have h2 : c ≠ ']' := fun h => hb (h ▸ List.mem_cons_of_mem _ hc)
        simp [notCommaBracket, h1, h2]
      have hend : starLoop notCommaBracket true (matchHere [⟨.lit ']', false⟩]) (']' :: s)
          = some ([], 1) := by
        rw [starLoop_of_not _ _ _ _ _ (by decide)]
        rfl
      have hstar := starLoop_greedy notCommaBracket true (matchHere [⟨.lit ']', false⟩]) xs
        (']' :: s) hxs _ hend
      rw [List.cons_append, matchHere_plus_cons, if_pos hx, hstar]
      simp [Match.consume]
      omega
  have hnext_none : ∀ t : Str, ¬ "url=".toList <+: t → next t = none :=
    fun t ht => matchHere_lits_none _ _ t ht
  have hstar_end : starLoop notBracket false next (']' :: s) = none := by
    rw [starLoop_of_not _ _ _ _ _ (by decide)]
    exact hnext_none _ (by simp [show "url=".toList = ['u', 'r', 'l', '='] from rfl])
  have hlater : ∀ y, y <:+ "rl=".toList ++ url → y ≠ [] → next (y ++ ']' :: s) = none := by
    intro y hy _
    apply hnext_none
    have e : "rl=".toList ++ url = 'r' :: 'l' :: '=' :: url := rfl
    rw [e] at hy
    rcases List.suffix_cons_iff.mp hy with rfl | hy
    · simp
    rcases List.suffix_cons_iff.mp hy with rfl | hy
    · simp
    rcases List.suffix_cons_iff.mp hy with rfl | hy
    · simp
    exact not_prefix_of_suffix_url url y s hy hb hu
  have hback := starLoop_backtrack notBracket false next 'u' ("rl=".toList ++ url) (']' :: s)
    hstar_end hlater
  have hbefore1 : ∀ c ∈ before, notBracket c = true := by
    intro c hc
    have : c ≠ ']' := fun h => hbefore (h ▸ hc)
    simp [notBracket, this]
  have hall := starLoop_greedy notBracket false next before _ hbefore1 _
    (hback.trans hnext_ok)
  rw [hin, hre, matchHere_lits_append, matchHere_star]
  show Option.map _ (starLoop notBracket false next _) = _
  rw [hall]
  simp [Segment.body]
  omega

theorem eq_of_prefix_sep (sep : Char) (p t r : Str) (hp : sep ∉ p) (ht : sep ∉ t)
    (h : p ++ [sep] <+: t ++ sep :: r) : t = p := by
  induction p generalizing t with
  | nil =>
    cases t with
    | nil => rfl
    | cons a t1 =>
      simp only [List.nil_append, List.cons_append, List.cons_prefix_cons] at h
      exact absurd (h.1 ▸ List.mem_cons_self _ _) ht
  | cons c p1 ih =>
    cases t with
    | nil =>
      simp only [List.nil_append, List.cons_append, List.cons_prefix_cons] at h
      exact absurd (h.1 ▸ List.mem_cons_self _ _) hp
    | cons a t1 =>
      simp only [List.cons_append, List.cons_prefix_cons] at h
      rw [h.1, ih t1 (fun hm => hp (List.mem_cons_of_mem _ hm))
        (fun hm => ht (List.mem_cons_of_mem _ hm)) h.2]

/-- The expression `reImage` matches nothing at the head of a tag of another kind. -/
theorem reImage_other (type attrs s : Str) (htype : type ≠ "image".toList) (hcomma : ',' ∉ type) :
    matchHere reImage ("[CQ:".toList ++ (Segment.other type attrs).body ++ [']'] ++ s)
      = none := by
  have hre : reImage = "[CQ:image,".toList.map (fun c => (⟨.lit c, false⟩ : Item))
      ++ (⟨.star notBracket, false⟩ :: ("url=".toList.map (fun c => (⟨.lit c, false⟩ : Item))
        ++ [⟨.plus notCommaBracket, true⟩, ⟨.lit ']', false⟩])) := rfl
  rw [hre]
  apply matchHere_lits_none
  intro hp
  have e1 : "[CQ:image,".toList = "[CQ:".toList ++ ("image".toList ++ [',']) := rfl
  have e2 : "[CQ:".toList ++ (Segment.other type attrs).body ++ [']'] ++ s
      = "[CQ:".toList ++ (type ++ ',' :: (attrs ++ ']' :: s)) := by
    simp [Segment.body]
  rw [e1, e2, List.prefix_append_right_inj] at hp
  exact htype (eq_of_prefix_sep ',' _ _ _ (by decide) hcomma hp)

/-- The image expression finds, in a message made of extractable pieces, the
URLs of the image tags in order. -/
theorem findAll_reImage_renderAll (segs : List Segment) (h : ∀ seg ∈ segs, seg.Extractable) :
    findAllStringSubmatch reImage (renderAll segs) = imageURLs segs := by
  unfold findAllStringSubmatch
  induction segs with
  | nil => rfl
  | cons seg segs ih =>
    have ih1 := ih (fun x hx => h x (List.mem_cons_of_mem _ hx))
    have hseg := h seg (List.mem_cons_self _ _)
    cases seg with
    | text t =>
      simp only [renderAll, Segment.render, imageURLs]
      rw [findAllFrom_nomatch reImage t _ (fun c rest hc =>
        reImage_none_of_ne c rest (fun hcb => hseg (hcb ▸ hc))), ih1]
    | image before url =>
      obtain ⟨h1, h2, h3, h4, h5⟩ := hseg
      simp only [renderAll, Segment.render, imageURLs]
      rw [findAllFrom_match reImage _ _ _ (reImage_tag before url _ h1 h2 h3 h4 h5) rfl
        (by simp), ih1]
    | other type attrs =>
      obtain ⟨h1, h2, h3, h4⟩ := hseg
      have hnone := reImage_other type attrs (renderAll segs) h1 h2
      have e : "[CQ:".toList ++ (Segment.other type attrs).body ++ [']'] ++ renderAll segs
          = '[' :: (("CQ:".toList ++ (type ++ ',' :: (attrs ++ [']']))) ++ renderAll segs) := by
        simp [Segment.body]
      simp only [renderAll, Segment.render, imageURLs]
      rw [e] at hnone ⊢
      have hstep : findAllFrom reImage 0
          ('[' :: (("CQ:".toList ++ (type ++ ',' :: (attrs ++ [']']))) ++ renderAll segs))
          = findAllFrom reImage 0
            (("CQ:".toList ++ (type ++ ',' :: (attrs ++ [']']))) ++ renderAll segs) := by
        simp only [findAllFrom, hnone]
      rw [hstep, findAllFrom_nomatch reImage _ _ (fun c rest hc =>
        reImage_none_of_ne c rest ?_), ih1]
      rintro rfl
      simp only [List.mem_append, List.mem_cons, List.mem_singleton, List.not_mem_nil,
        or_false] at hc
      rcases hc with hc | hc | hc | hc | hc
      · revert hc; decide
      · exact h3 hc
      · revert hc; decide
      · exact h4 hc
      · revert hc; decide

/-- C5: for a raw message free of HTML escapes, made of plain text without `[`
and of tags `[CQ:...]` whose bodies hold no `]`, the `Text` returned by
`parseCQCode` is the concatenation of the plain text, trimmed of leading and
trailing white space. -/
theorem parseCQCode_text_strips_tags (lib : GoLib) (segs : List Segment)
    (hraw : lib.htmlUnescapeString (renderAll segs) = renderAll segs)
    (hsegs : ∀ seg ∈ segs, seg.Strippable) :
    (parseCQCode lib (renderAll segs)).Text = TrimSpace lib (plainText segs) := by
  show TrimSpace lib (replaceAllString reCQ (unescapeCQCode lib (renderAll segs)) []) = _
  rw [unescapeCQCode, hraw, replaceAll_reCQ_renderAll segs hsegs]

theorem parseCQCode_text_strips_tags_witness :
    sampleLib.htmlUnescapeString (renderAll sampleSegments) = renderAll sampleSegments ∧
    (∀ seg ∈ sampleSegments, seg.Strippable) ∧
    renderAll sampleSegments
      = " see [CQ:at,qq=42]this[CQ:image,file=a.jpg,url=http://x/a.jpg][CQ:reply,id=-7] now  ".toList ∧
    (parseCQCode sampleLib (renderAll sampleSegments)).Text = "see this now".toList :=
  have hs : ∀ seg ∈ sampleSegments, seg.Strippable := by
    intro seg hseg
    simp only [sampleSegments, List.mem_cons, List.mem_singleton, List.not_mem_nil,
      or_false] at hseg
    rcases hseg with rfl | rfl | rfl | rfl | rfl | rfl <;>
      simp only [Segment.Strippable] <;> decide
  ⟨by decide, hs, by decide,
    (parseCQCode_text_strips_tags sampleLib sampleSegments (by decide) hs).trans (by decide)⟩

/-- C4, as stated, fails: in an image tag whose `url=` attribute is followed by
another attribute the image expression finds no match, and no URL is returned. -/
theorem parseCQCode_url_not_last :
    sampleLib.htmlUnescapeString "[CQ:image,url=http://a,file=b]".toList
      = "[CQ:image,url=http://a,file=b]".toList ∧
    (parseCQCode sampleLib "[CQ:image,url=http://a,file=b]".toList).ImageURLList = [] ∧
    (parseCQCode sampleLib "[CQ:image,url=http://a,file=b]".toList).ImageURLList
      ≠ ["http://a".toList] := by
  decide

/-- C4, as amended: for a raw message free of HTML escapes, made of plain text
without `[`, of image tags whose last attribute is `url=<u>` (with `u` not
empty and free of `,`, of `]` and of the text `url=`, and no `]` before it) and
of tags of other kinds (type other than `image`, no `[` inside), `parseCQCode`
returns as `ImageURLList` the URLs of the image tags, in document order. -/
theorem parseCQCode_image_urls (lib : GoLib) (segs : List Segment)
    (hraw : lib.htmlUnescapeString (renderAll segs) = renderAll segs)
    (hsegs : ∀ seg ∈ segs, seg.Extractable) :
    (parseCQCode lib (renderAll segs)).ImageURLList = imageURLs segs := by
  show findAllStringSubmatch reImage (unescapeCQCode lib (renderAll segs)) = _
  rw [unescapeCQCode, hraw, findAll_reImage_renderAll segs hsegs]

theorem parseCQCode_image_urls_witness :
    sampleLib.htmlUnescapeString (renderAll twoImages) = renderAll twoImages ∧
    (∀ seg ∈ twoImages, seg.Extractable) ∧
    (parseCQCode sampleLib (renderAll twoImages)).ImageURLList
      = ["http://x/1.png".toList, "http://x/2.png".toList] :=
  have hs : ∀ seg ∈ twoImages, seg.Extractable := by
    intro seg hseg
    simp only [twoImages, List.mem_cons, List.mem_singleton, List.not_mem_nil,
      or_false] at hseg
    rcases hseg with rfl | rfl | rfl | rfl <;>
      simp only [Segment.Extractable] <;> decide
  ⟨by decide, hs, parseCQCode_image_urls sampleLib twoImages (by decide) hs⟩

/-! ## The session pipeline -/

/-- A text trimmed by `TrimSpace` is not changed by trimming spaces again. -/
theorem Trim_TrimSpace (lib : GoLib) (hspace : lib.unicodeIsSpace ' ' = true) (s : Str) :
    Trim (TrimSpace lib s) " ".toList = TrimSpace lib s := by
  have hq : ∀ c : Char, (" ".toList.contains c) = true → lib.unicodeIsSpace c = true := by
    intro c hc
    have : c = ' ' := by simpa using hc
    rw [this, hspace]
  unfold Trim
  have h1 : (TrimSpace lib s).dropWhile (fun c => " ".toList.contains c) = TrimSpace lib s := by
    cases hl : TrimSpace lib s with
    | nil => rfl
    | cons c l1 =>
      have hpre : c :: l1 <+: s.dropWhile lib.unicodeIsSpace := by
        rw [← hl]; exact List.rdropWhile_prefix lib.unicodeIsSpace _
      obtain ⟨t, ht⟩ := hpre
      have hne : s.dropWhile lib.unicodeIsSpace ≠ [] := by rw [← ht]; simp
      have hhead := List.head_dropWhile_not lib.unicodeIsSpace s hne
      have hc : (s.dropWhile lib.unicodeIsSpace).head hne = c := by
        simp only [← ht, List.cons_append, List.head_cons]
      rw [hc] at hhead
      have hnq : (" ".toList.contains c) = false := by
        cases hcc : (" ".toList.contains c) with
        | false => rfl
        | true => rw [hq c hcc] at hhead; cases hhead
      rw [List.dropWhile_cons_of_neg (by rw [hnq]; simp)]
  rw [h1, List.rdropWhile_eq_self_iff]
  intro hl hcontra
  exact List.rdropWhile_last_not lib.unicodeIsSpace (s.dropWhile lib.unicodeIsSpace) hl
    (hq _ hcontra)

/-- The estimate is at most 1.5 per code point. -/
theorem roughStep_foldl_le (lib : GoLib) (text : Str) (state : ℚ × Bool) :
    (text.foldl (roughStep lib) state).1 ≤ state.1 + 1.5 * (text.length : ℚ) := by
  induction text generalizing state with
  | nil => simp
  | cons c cs ih =>
    have hstep : (roughStep lib state c).1 ≤ state.1 + 1.5 := by
      unfold roughStep
      split
      · simp
      · split
        · norm_num
        · split <;> norm_num
    have := ih (roughStep lib state c)
    rw [List.foldl_cons]
    push_cast [List.length_cons]
    linarith

theorem roughEstimate_le (lib : GoLib) (text : Str) :
    RoughEstimateTokens lib text ≤ 1.5 * (text.length : ℚ) := by
  have := roughStep_foldl_le lib text (0, false)
  simpa [RoughEstimateTokens] using this

/-- The counter only ever holds a half-integer that is at most 1.5 times the
length of the text read so far: these are the values `float64` adds exactly. -/
theorem roughEstimate_half_integer (lib : GoLib) (text : Str) :
    ∃ k : Nat, RoughEstimateTokens lib text = (k : ℚ) / 2 ∧ k ≤ 3 * text.length := by
  refine ⟨3 * hanCount lib text + 2 * (wordRuns lib text).length, ?_, ?_⟩
  · rw [roughEstimate_closed_form]
    push_cast
    ring
  · have h1 := roughEstimate_le lib text
    rw [roughEstimate_closed_form] at h1
    have h2 : ((3 * hanCount lib text + 2 * (wordRuns lib text).length : Nat) : ℚ)
        ≤ ((3 * text.length : Nat) : ℚ) := by
      push_cast
      linarith
    exact_mod_cast h2

theorem roughEstimate_nil (lib : GoLib) : RoughEstimateTokens lib [] = 0 := by
  simp [RoughEstimateTokens]

theorem roughEstimate_sentinel (lib : GoLib) : ¬ RoughEstimateTokens lib sentinel > 3000 := by
  have h := roughEstimate_le lib sentinel
  have hl : (sentinel.length : ℚ) = 2 := by
    have : sentinel.length = 2 := by decide
    rw [this]; norm_num
  rw [hl] at h
  intro hc
  norm_num at h
  linarith

/-- The events of a query are kept, in order, by the delivery of its answer. -/
theorem deliverAnswer_trace (userID : Int) (result : QueryResult) :
    result.trace <+: (deliverAnswer userID result).trace := by
  unfold deliverAnswer
  split
  · split
    · exact List.prefix_append _ _
    · split
      · exact List.prefix_refl _
      · exact List.prefix_append _ _
  · exact List.prefix_refl _

theorem recordExchange_trace (store : Store) (trace : List Event) (userID : Int)
    (content : Str) (response : Response) :
    (recordExchange store trace userID content response).trace = trace := by
  unfold recordExchange
  split
  · split
    · rfl
    · dsimp only
      cases updateHistoryWithResponse store userID _ _ <;> rfl
  · rfl

/-- The events of `queryOpenAIWithContext`: the interim notice when the text is
escalated, then the request, unless the notice could not be sent. -/
theorem queryOpenAIWithContext_trace (env : Env) (store : Store) (userID : Int) (text : Str) :
    (queryOpenAIWithContext env store userID text).trace =
      (if HasPrefix text gpt4Prefix = true then [Event.send userID gpt4Notice] else []) ++
      (if HasPrefix text gpt4Prefix = true ∧ env.sendPrivateMessage userID gpt4Notice = false
        then []
        else [Event.ask (Request.chat
          (if HasPrefix text gpt4Prefix = true then "gpt-4o".toList else "gpt-3.5-turbo".toList)
          ((store userID ++ [Message.mk "user".toList
              (if HasPrefix text gpt4Prefix = true then text.drop 5 else text) 0]).map
            (fun m => (m.Role, m.Content))))]) := by
  unfold queryOpenAIWithContext
  simp only
  split
  · simp
  · split
    · rfl
    · rw [recordExchange_trace]

/-- An escalated text whose interim notice cannot be sent: the function returns
the error at once; nothing but the notice was attempted. -/
theorem queryOpenAIWithContext_unsent (env : Env) (store : Store) (userID : Int) (text : Str)
    (hp : HasPrefix text gpt4Prefix = true)
    (hsend : env.sendPrivateMessage userID gpt4Notice = false) :
    queryOpenAIWithContext env store userID text
      = { store := store, trace := [Event.send userID gpt4Notice], response := none,
          status := .ok () } := by
  unfold queryOpenAIWithContext
  simp only [hp, hsend, and_self, if_true]

theorem queryOpenAIWithImage_trace (env : Env) (store : Store) (userID : Int) (text : Str)
    (urls : List Str) :
    ∃ request, (queryOpenAIWithImage env store userID text urls).trace = [Event.ask request] := by
  unfold queryOpenAIWithImage
  simp only
  split
  · exact ⟨_, rfl⟩
  · exact ⟨_, recordExchange_trace _ _ _ _ _⟩

theorem handle_tooLong (lib : GoLib) (env : Env) (store : Store) (msg : QQMessage)
    (h : RoughEstimateTokens lib (parseCQCode lib msg.Message).Text > 3000) :
    handlePrivateMessage lib env store msg
      = { store := store, trace := [Event.send msg.UserID tooLongNotice], status := .ok () } := by
  unfold handlePrivateMessage
  dsimp only
  rw [if_pos h]

theorem handle_silent (lib : GoLib) (env : Env) (store : Store) (msg : QQMessage)
    (h : ¬ RoughEstimateTokens lib (parseCQCode lib msg.Message).Text > 3000)
    (hi : (parseCQCode lib msg.Message).ImageURLList = [])
    (ht : (parseCQCode lib msg.Message).Text = []) :
    handlePrivateMessage lib env store msg = { store := store, trace := [], status := .ok () } := by
  have hc : (parseCQCode lib msg.Message).ImageURLList.length = 0
      ∧ Trim (parseCQCode lib msg.Message).Text " ".toList = [] := by
    rw [hi, ht]; exact ⟨rfl, rfl⟩
  unfold handlePrivateMessage
  dsimp only
  rw [if_neg h, if_pos hc]

theorem handle_canned (lib : GoLib) (env : Env) (store : Store) (msg : QQMessage)
    (h : ¬ RoughEstimateTokens lib (parseCQCode lib msg.Message).Text > 3000)
    (hi : (parseCQCode lib msg.Message).ImageURLList = [])
    (ht : (parseCQCode lib msg.Message).Text = sentinel) :
    handlePrivateMessage lib env store msg
      = { store := store, trace := [Event.send msg.UserID cannedReply], status := .ok () } := by
  have hc : ¬ ((parseCQCode lib msg.Message).ImageURLList.length = 0
      ∧ Trim (parseCQCode lib msg.Message).Text " ".toList = []) := by
    rw [ht]
    have : ¬ (Trim sentinel " ".toList = []) := by decide
    exact fun hx => this hx.2
  have hl : (parseCQCode lib msg.Message).ImageURLList.length = 0 := by rw [hi]; rfl
  unfold handlePrivateMessage
  dsimp only
  rw [if_neg h, if_neg hc, if_pos hl, if_pos ht]

theorem handle_text (lib : GoLib) (hspace : lib.unicodeIsSpace ' ' = true) (env : Env)
    (store : Store) (msg : QQMessage)
    (h : ¬ RoughEstimateTokens lib (parseCQCode lib msg.Message).Text > 3000)
    (hi : (parseCQCode lib msg.Message).ImageURLList = [])
    (ht : (parseCQCode lib msg.Message).Text ≠ [])
    (hs : (parseCQCode lib msg.Message).Text ≠ sentinel) :
    handlePrivateMessage lib env store msg
      = deliverAnswer msg.UserID
          (queryOpenAIWithContext env store msg.UserID (parseCQCode lib msg.Message).Text) := by
  have htrim : Trim (parseCQCode lib msg.Message).Text " ".toList
      = (parseCQCode lib msg.Message).Text := Trim_TrimSpace lib hspace _
  have hc : ¬ ((parseCQCode lib msg.Message).ImageURLList.length = 0
      ∧ Trim (parseCQCode lib msg.Message).Text " ".toList = []) := by
    rw [htrim]; exact fun hx => ht hx.2
  have hl : (parseCQCode lib msg.Message).ImageURLList.length = 0 := by rw [hi]; rfl
  unfold handlePrivateMessage
  dsimp only
  rw [if_neg h, if_neg hc, if_pos hl, if_neg hs]

theorem handle_image (lib : GoLib) (env : Env) (store : Store) (msg : QQMessage)
    (h : ¬ RoughEstimateTokens lib (parseCQCode lib msg.Message).Text > 3000)
    (hi : (parseCQCode lib msg.Message).ImageURLList ≠ []) :
    handlePrivateMessage lib env store msg
      = deliverAnswer msg.UserID
          { queryOpenAIWithImage env store msg.UserID (parseCQCode lib msg.Message).Text
              (parseCQCode lib msg.Message).ImageURLList with
            trace := Event.send msg.UserID imageNotice ::
              (queryOpenAIWithImage env store msg.UserID (parseCQCode lib msg.Message).Text
                (parseCQCode lib msg.Message).ImageURLList).trace } := by
  have hl : ¬ (parseCQCode lib msg.Message).ImageURLList.length = 0 := by
    intro hx; exact hi (List.length_eq_zero.mp hx)
  have hc : ¬ ((parseCQCode lib msg.Message).ImageURLList.length = 0
      ∧ Trim (parseCQCode lib msg.Message).Text " ".toList = []) := fun hx => hl hx.1
  unfold handlePrivateMessage
  dsimp only
  rw [if_neg h, if_neg hc, if_neg hl]

/-- Past the guard, the events of the task begin with an interim notice or with
the request to the completion service. -/
theorem query_trace_head (userID : Int) (result : QueryResult)
    (hr : ∃ e rest, result.trace = e :: rest ∧
      (e = Event.send userID gpt4Notice ∨ e = Event.send userID imageNotice ∨
        ∃ request, e = Event.ask request)) :
    (deliverAnswer userID result).trace ≠ [] ∧
    (deliverAnswer userID result).trace ≠ [Event.send userID cannedReply] ∧
    (deliverAnswer userID result).trace ≠ [Event.send userID tooLongNotice] := by
  obtain ⟨e, rest, hrt, he⟩ := hr
  obtain ⟨t, ht⟩ := deliverAnswer_trace userID result
  rw [hrt] at ht
  rw [← ht]
  have h1 : gpt4Notice ≠ cannedReply := by decide
  have h2 : gpt4Notice ≠ tooLongNotice := by decide
  have h3 : imageNotice ≠ cannedReply := by decide
  have h4 : imageNotice ≠ tooLongNotice := by decide
  refine ⟨by simp, ?_, ?_⟩
  · intro hx
    simp only [List.cons_append, List.cons.injEq] at hx
    rcases he with rfl | rfl | ⟨request, rfl⟩
    · exact h1 (by simpa using hx.1)
    · exact h3 (by simpa using hx.1)
    · simp at hx
  · intro hx
    simp only [List.cons_append, List.cons.injEq] at hx
    rcases he with rfl | rfl | ⟨request, rfl⟩
    · exact h2 (by simpa using hx.1)
    · exact h4 (by simpa using hx.1)
    · simp at hx

theorem queryOpenAIWithContext_head (env : Env) (store : Store) (userID : Int) (text : Str) :
    ∃ e rest, (queryOpenAIWithContext env store userID text).trace = e :: rest ∧
      (e = Event.send userID gpt4Notice ∨ e = Event.send userID imageNotice ∨
        ∃ request, e = Event.ask request) := by
  rw [queryOpenAIWithContext_trace]
  by_cases hp : HasPrefix text gpt4Prefix = true
  · rw [if_pos hp]
    exact ⟨_, _, List.singleton_append, Or.inl rfl⟩
  · have hn : ¬ (HasPrefix text gpt4Prefix = true
        ∧ env.sendPrivateMessage userID gpt4Notice = false) := fun hx => hp hx.1
    rw [if_neg hp, if_neg hn]
    exact ⟨_, [], rfl, Or.inr (Or.inr ⟨_, rfl⟩)⟩

/-- C6, as stated, fails: the text "/GPT4 hi" without image is not empty, is not
the sentinel and is not too long, yet when the interim notice cannot be sent
`queryOpenAIWithContext` returns its error before it builds the request: the
task attempts the notice and no completion request is composed. -/
theorem handlePrivateMessage_unsent_notice :
    (parseCQCode sampleLib (privateMessage 1 "/GPT4 hi").Message).ImageURLList = [] ∧
    (parseCQCode sampleLib (privateMessage 1 "/GPT4 hi").Message).Text = "/GPT4 hi".toList ∧
    "/GPT4 hi".toList ≠ [] ∧ "/GPT4 hi".toList ≠ sentinel ∧
    ¬ RoughEstimateTokens sampleLib "/GPT4 hi".toList > 3000 ∧
    (handlePrivateMessage sampleLib (deafEnv (some emptyResponse)) emptyStore
      (privateMessage 1 "/GPT4 hi")).trace = [Event.send 1 gpt4Notice] ∧
    ∀ request, Event.ask request ∉
      (handlePrivateMessage sampleLib (deafEnv (some emptyResponse)) emptyStore
        (privateMessage 1 "/GPT4 hi")).trace := by
  have hrough : ¬ RoughEstimateTokens sampleLib "/GPT4 hi".toList > 3000 := by
    simp [RoughEstimateTokens, roughStep, sampleLib, asciiIsPunct]
    norm_num
  have hlong : ¬ RoughEstimateTokens sampleLib
      (parseCQCode sampleLib (privateMessage 1 "/GPT4 hi").Message).Text > 3000 := by
    have e : (parseCQCode sampleLib (privateMessage 1 "/GPT4 hi").Message).Text
        = "/GPT4 hi".toList := by decide
    rw [e]; exact hrough
  have hrun : (handlePrivateMessage sampleLib (deafEnv (some emptyResponse)) emptyStore
      (privateMessage 1 "/GPT4 hi")).trace = [Event.send 1 gpt4Notice] := by
    rw [handle_text sampleLib (by decide) _ _ _ hlong (by decide) (by decide) (by decide)]
    decide
  refine ⟨by decide, by decide, by decide, by decide, hrough, hrun, ?_⟩
  intro request hmem
  rw [hrun] at hmem
  simp at hmem

/-- C6, as amended: the guard of `handlePrivateMessage` on a parsed message. The
task does nothing at all (no message sent, no request) exactly when there is no
image and the text is empty; it sends the canned reply and nothing else exactly
when there is no image and the text is the sentinel; it sends the "too long"
notice and nothing else exactly when the estimate of the text exceeds 3000; in
these three cases the history is unchanged and no request is made. In every
other case the task hands the message to `queryOpenAIWithContext` or, after the
image notice, to `queryOpenAIWithImage`, and a completion request is composed
and posted, with one exception: for a text without image that begins with
`/GPT4`, the request is composed only when the interim notice was sent without
error; when that send fails the task attempts the notice and nothing else, and
the history is unchanged. The order of the checks (length first) does not
matter, since the empty text and the sentinel are never too long. -/
theorem handlePrivateMessage_guard (lib : GoLib) (hspace : lib.unicodeIsSpace ' ' = true)
    (env : Env) (store : Store) (msg : QQMessage) :
    ((handlePrivateMessage lib env store msg).trace = [] ↔
      (parseCQCode lib msg.Message).ImageURLList = [] ∧
        (parseCQCode lib msg.Message).Text = []) ∧
    ((handlePrivateMessage lib env store msg).trace = [Event.send msg.UserID cannedReply] ↔
      (parseCQCode lib msg.Message).ImageURLList = [] ∧
        (parseCQCode lib msg.Message).Text = sentinel) ∧
    ((handlePrivateMessage lib env store msg).trace = [Event.send msg.UserID tooLongNotice] ↔
      RoughEstimateTokens lib (parseCQCode lib msg.Message).Text > 3000) ∧
    ((RoughEstimateTokens lib (parseCQCode lib msg.Message).Text > 3000 ∨
        ((parseCQCode lib msg.Message).ImageURLList = [] ∧
          ((parseCQCode lib msg.Message).Text = [] ∨
            (parseCQCode lib msg.Message).Text = sentinel))) →
      (handlePrivateMessage lib env store msg).store = store ∧
      (handlePrivateMessage lib env store msg).status = .ok () ∧
      ∀ request, Event.ask request ∉ (handlePrivateMessage lib env store msg).trace) ∧
    (¬ RoughEstimateTokens lib (parseCQCode lib msg.Message).Text > 3000 →
      ¬ ((parseCQCode lib msg.Message).ImageURLList = [] ∧
        (parseCQCode lib msg.Message).Text = []) →
      ¬ ((parseCQCode lib msg.Message).ImageURLList = [] ∧
        (parseCQCode lib msg.Message).Text = sentinel) →
      ((parseCQCode lib msg.Message).ImageURLList = [] →
        handlePrivateMessage lib env store msg
          = deliverAnswer msg.UserID (queryOpenAIWithContext env store msg.UserID
              (parseCQCode lib msg.Message).Text)) ∧
      ((parseCQCode lib msg.Message).ImageURLList ≠ [] →
        handlePrivateMessage lib env store msg
          = deliverAnswer msg.UserID
              { queryOpenAIWithImage env store msg.UserID (parseCQCode lib msg.Message).Text
                  (parseCQCode lib msg.Message).ImageURLList with
                trace := Event.send msg.UserID imageNotice ::
                  (queryOpenAIWithImage env store msg.UserID (parseCQCode lib msg.Message).Text
                    (parseCQCode lib msg.Message).ImageURLList).trace }) ∧
      (¬ ((parseCQCode lib msg.Message).ImageURLList = [] ∧
          HasPrefix (parseCQCode lib msg.Message).Text gpt4Prefix = true ∧
          env.sendPrivateMessage msg.UserID gpt4Notice = false) →
        ∃ request, Event.ask request ∈ (handlePrivateMessage lib env store msg).trace) ∧
      (((parseCQCode lib msg.Message).ImageURLList = [] ∧
          HasPrefix (parseCQCode lib msg.Message).Text gpt4Prefix = true ∧
          env.sendPrivateMessage msg.UserID gpt4Notice = false) →
        (handlePrivateMessage lib env store msg).trace = [Event.send msg.UserID gpt4Notice] ∧
        (handlePrivateMessage lib env store msg).store = store ∧
        (handlePrivateMessage lib env store msg).status = .ok ())) := by
  have hnil : ¬ RoughEstimateTokens lib [] > 3000 := by rw [roughEstimate_nil]; norm_num
  have hsent := roughEstimate_sentinel lib
  have hne : sentinel ≠ [] := by decide
  have hcanned : cannedReply ≠ tooLongNotice := by decide
  -- the five branches
  by_cases hlong : RoughEstimateTokens lib (parseCQCode lib msg.Message).Text > 3000
  · have hrun := handle_tooLong lib env store msg hlong
    have ht1 : (parseCQCode lib msg.Message).Text ≠ [] := fun h => hnil (h ▸ hlong)
    have ht2 : (parseCQCode lib msg.Message).Text ≠ sentinel := fun h => hsent (h ▸ hlong)
    rw [hrun]
    refine ⟨⟨fun h => by simp at h, fun h => absurd h.2 ht1⟩,
      ⟨fun h => ?_, fun h => absurd h.2 ht2⟩, ⟨fun _ => hlong, fun _ => rfl⟩,
      fun _ => ⟨rfl, rfl, fun request h => by simp at h⟩, fun h => absurd hlong h⟩
    simp only [List.cons.injEq, Event.send.injEq, and_true, true_and] at h
    exact absurd h.symm hcanned
  by_cases himg : (parseCQCode lib msg.Message).ImageURLList = []
  · by_cases hempty : (parseCQCode lib msg.Message).Text = []
    · have hrun := handle_silent lib env store msg hlong himg hempty
      have ht2 : (parseCQCode lib msg.Message).Text ≠ sentinel := fun h => hne (h.symm.trans hempty)
      rw [hrun]
      exact ⟨⟨fun _ => ⟨himg, hempty⟩, fun _ => rfl⟩,
        ⟨fun h => by simp at h, fun h => absurd h.2 ht2⟩,
        ⟨fun h => by simp at h, fun h => absurd h hlong⟩,
        fun _ => ⟨rfl, rfl, fun request h => by simp at h⟩,
        fun _ h => absurd ⟨himg, hempty⟩ h⟩
    by_cases hs : (parseCQCode lib msg.Message).Text = sentinel
    · have hrun := handle_canned lib env store msg hlong himg hs
      rw [hrun]
      refine ⟨⟨fun h => by simp at h, fun h => absurd h.2 hempty⟩,
        ⟨fun _ => ⟨himg, hs⟩, fun _ => rfl⟩,
        ⟨fun h => ?_, fun h => absurd h hlong⟩,
        fun _ => ⟨rfl, rfl, fun request h => by simp at h⟩,
        fun _ _ h => absurd ⟨himg, hs⟩ h⟩
      simp only [List.cons.injEq, Event.send.injEq, and_true, true_and] at h
      exact absurd h hcanned
    · have hrun := handle_text lib hspace env store msg hlong himg hempty hs
      have hhead := queryOpenAIWithContext_head env store msg.UserID
        (parseCQCode lib msg.Message).Text
      obtain ⟨h1, h2, h3⟩ := query_trace_head msg.UserID _ hhead
      rw [hrun]
      refine ⟨⟨fun h => absurd h h1, fun h => absurd h.2 hempty⟩,
        ⟨fun h => absurd h h2, fun h => absurd h.2 hs⟩,
        ⟨fun h => absurd h h3, fun h => absurd h hlong⟩, ?_,
        fun _ _ _ => ⟨fun _ => rfl, fun h => absurd himg h, fun hsend => ?_, fun hfail => ?_⟩⟩
      · rintro (h | ⟨_, h | h⟩)
        · exact absurd h hlong
        · exact absurd h hempty
        · exact absurd h hs
      · have hpre := deliverAnswer_trace msg.UserID (queryOpenAIWithContext env store msg.UserID
          (parseCQCode lib msg.Message).Text)
        have hn : ¬ (HasPrefix (parseCQCode lib msg.Message).Text gpt4Prefix = true ∧
            env.sendPrivateMessage msg.UserID gpt4Notice = false) :=
          fun hx => hsend ⟨himg, hx.1, hx.2⟩
        rw [queryOpenAIWithContext_trace, if_neg hn] at hpre
        exact ⟨_, hpre.subset (List.mem_append_right _ (List.mem_singleton_self _))⟩
      · rw [queryOpenAIWithContext_unsent env store msg.UserID _ hfail.2.1 hfail.2.2]
        exact ⟨rfl, rfl, rfl⟩
  · have hrun := handle_image lib env store msg hlong himg
    obtain ⟨request, hreq⟩ := queryOpenAIWithImage_trace env store msg.UserID
      (parseCQCode lib msg.Message).Text (parseCQCode lib msg.Message).ImageURLList
    obtain ⟨h1, h2, h3⟩ := query_trace_head msg.UserID
      { queryOpenAIWithImage env store msg.UserID (parseCQCode lib msg.Message).Text
          (parseCQCode lib msg.Message).ImageURLList with
        trace := Event.send msg.UserID imageNotice ::
          (queryOpenAIWithImage env store msg.UserID (parseCQCode lib msg.Message).Text
            (parseCQCode lib msg.Message).ImageURLList).trace }
      ⟨_, _, rfl, Or.inr (Or.inl rfl)⟩
    rw [hrun]
    refine ⟨⟨fun h => absurd h h1, fun h => absurd h.1 himg⟩,
      ⟨fun h => absurd h h2, fun h => absurd h.1 himg⟩,
      ⟨fun h => absurd h h3, fun h => absurd h hlong⟩, ?_,
      fun _ _ _ => ⟨fun h => absurd h himg, fun _ => rfl, fun _ => ?_, fun hfail => absurd hfail.1 himg⟩⟩
    · rintro (h | ⟨h, _⟩)
      · exact absurd h hlong
      · exact absurd h himg
    · have hpre := deliverAnswer_trace msg.UserID
        { queryOpenAIWithImage env store msg.UserID (parseCQCode lib msg.Message).Text
            (parseCQCode lib msg.Message).ImageURLList with
          trace := Event.send msg.UserID imageNotice ::
            (queryOpenAIWithImage env store msg.UserID (parseCQCode lib msg.Message).Text
              (parseCQCode lib msg.Message).ImageURLList).trace }
      refine ⟨request, hpre.subset ?_⟩
      show Event.ask request ∈ Event.send msg.UserID imageNotice :: _
      rw [hreq]
      simp

theorem handlePrivateMessage_guard_witness :
    sampleLib.unicodeIsSpace ' ' = true ∧
    ((handlePrivateMessage sampleLib (sampleEnv (some emptyResponse)) emptyStore
        (privateMessage 1 "无语")).trace = [Event.send 1 cannedReply] ↔
      (parseCQCode sampleLib (privateMessage 1 "无语").Message).ImageURLList = [] ∧
        (parseCQCode sampleLib (privateMessage 1 "无语").Message).Text = sentinel) :=
  ⟨by decide, (handlePrivateMessage_guard sampleLib (by decide) (sampleEnv (some emptyResponse))
    emptyStore (privateMessage 1 "无语")).2.1⟩

/-- C7, as stated, fails: for "/GPT4 hello" the request has the upgraded model,
but the content of its final user message is " hello": the five code points of
the prefix are cut and the space after them is kept. -/
theorem queryOpenAIWithContext_keeps_space :
    (queryOpenAIWithContext (sampleEnv none) emptyStore 1 "/GPT4 hello".toList).trace
      = [Event.send 1 gpt4Notice,
          Event.ask (Request.chat "gpt-4o".toList [("user".toList, " hello".toList)])] ∧
    " hello".toList ≠ "hello".toList := by
  decide

/-- C7, as amended: for a text that begins with the prefix `/GPT4`, once the
interim notice was sent without error, `queryOpenAIWithContext` posts a request
whose model is `gpt-4o` and whose messages are the stored history followed by a
user message whose content is the text after the five code points of the
prefix; for the prefix, one space and a body `b`, that content is the space
followed by `b`. -/
theorem queryOpenAIWithContext_escalated (env : Env) (store : Store) (userID : Int)
    (rest : Str) (hsend : env.sendPrivateMessage userID gpt4Notice = true) :
    (queryOpenAIWithContext env store userID (gpt4Prefix ++ rest)).trace
      = [Event.send userID gpt4Notice,
          Event.ask (Request.chat "gpt-4o".toList
            ((store userID).map (fun m => (m.Role, m.Content)) ++ [("user".toList, rest)]))] ∧
    (queryOpenAIWithContext env store userID ("/GPT4 ".toList ++ rest)).trace
      = [Event.send userID gpt4Notice,
          Event.ask (Request.chat "gpt-4o".toList
            ((store userID).map (fun m => (m.Role, m.Content))
              ++ [("user".toList, ' ' :: rest)]))] := by
  have main : ∀ r : Str, (queryOpenAIWithContext env store userID (gpt4Prefix ++ r)).trace
      = [Event.send userID gpt4Notice,
          Event.ask (Request.chat "gpt-4o".toList
            ((store userID).map (fun m => (m.Role, m.Content)) ++ [("user".toList, r)]))] := by
    intro r
    have hp : HasPrefix (gpt4Prefix ++ r) gpt4Prefix = true := by
      simp [HasPrefix]
    have hd : (gpt4Prefix ++ r).drop 5 = r := by
      simp [gpt4Prefix]
    have hn : ¬ (HasPrefix (gpt4Prefix ++ r) gpt4Prefix = true ∧
        env.sendPrivateMessage userID gpt4Notice = false) := by
      rw [hsend]; simp
    rw [queryOpenAIWithContext_trace, if_pos hp, if_neg hn, if_pos hp, if_pos hp, hd]
    simp
  exact ⟨main rest, main (' ' :: rest)⟩

theorem queryOpenAIWithContext_escalated_witness :
    (sampleEnv none).sendPrivateMessage 1 gpt4Notice = true ∧
    (queryOpenAIWithContext (sampleEnv none) emptyStore 1 (gpt4Prefix ++ " hello".toList)).trace
      = [Event.send 1 gpt4Notice,
          Event.ask (Request.chat "gpt-4o".toList
            ((emptyStore 1).map (fun m => (m.Role, m.Content))
              ++ [("user".toList, " hello".toList)]))] :=
  ⟨rfl, (queryOpenAIWithContext_escalated (sampleEnv none) emptyStore 1 " hello".toList rfl).1⟩

/-- C9, failing input: the private message "hi" when the completion service
answers with no choice and no error. `queryOpenAIWithContext` tests
`len(response.Choices) > 0` and returns normally, leaving the history alone;
`handlePrivateMessage` then reads `answer.Choices[0]` without a test and the
task panics with "index out of range". -/
theorem handlePrivateMessage_zero_choices_panics :
    (queryOpenAIWithContext (sampleEnv (some emptyResponse)) emptyStore 1 "hi".toList).status
      = .ok () ∧
    (queryOpenAIWithContext (sampleEnv (some emptyResponse)) emptyStore 1 "hi".toList).response
      = some emptyResponse ∧
    (handlePrivateMessage sampleLib (sampleEnv (some emptyResponse)) emptyStore
      (privateMessage 1 "hi")).status = .indexOutOfRange := by
  refine ⟨by decide, by decide, ?_⟩
  have hlong : ¬ RoughEstimateTokens sampleLib
      (parseCQCode sampleLib (privateMessage 1 "hi").Message).Text > 3000 := by
    have e : (parseCQCode sampleLib (privateMessage 1 "hi").Message).Text = "hi".toList := by
      decide
    rw [e]
    simp [RoughEstimateTokens, roughStep, sampleLib, asciiIsPunct]
  rw [handle_text sampleLib (by decide) _ _ _ hlong (by decide) (by decide) (by decide)]
  decide

end GuGuMouse
